import Mathlib

set_option maxHeartbeats 1000000

namespace Bambi

/-! Shallow embedding of the index-decoding core of `src/decode.c` (the
`bambi decode` subcommand).  C strings are `List Char`; a read of the
terminator of a shorter string during `countMismatches` is modelled by the
NUL character.  C `int` configuration values are `Int`; string lengths and
mismatch counts, which are non-negative throughout the C code, are `Nat`.
Pointers into the barcode array are array indices; pointer-valued results
of `findBestMatch` are the index of the entry the C returns.  The external
hash table collaborator (`hash_table.h`, not part of this repository) is
modelled as first-match association lookup over the insertion sequence. -/

/-- ASCII NUL: what a C read of a string terminator yields.  `countMismatches`
iterates over its first argument, reading the second at the same offsets; when
the second is shorter the C reads its terminator (and past it, which is
undefined); we model every such read as NUL. -/
def nulChar : Char := Char.ofNat 0

/-- INDEX_SEPARATOR from bambi.h: the literal "-". -/
def sepChar : Char := '-'

/-- isNoCall from decode.c: `b=='N' || b=='n' || b=='.'`. -/
def isNoCall (b : Char) : Bool := b == 'N' || b == 'n' || b == '.'

/-- noCalls from decode.c: count of no-call characters in a sequence. -/
def noCalls (s : List Char) : Nat := s.countP isNoCall

/-- Loop of countMismatches from decode.c, with running count `n` and early
exit as soon as the count exceeds `maxval`. -/
def countMismatchesAux (maxval : Nat) : List Char → List Char → Nat → Nat
  | [], _, n => n
  | t :: ts, bs, n =>
    if t ≠ bs.headD nulChar ∧ bs.headD nulChar ≠ 'N' then
      if n + 1 > maxval then n + 1
      else countMismatchesAux maxval ts bs.tail (n + 1)
    else countMismatchesAux maxval ts bs.tail n

/-- countMismatches from decode.c: Hamming distance over the positions of
`tag`, a no-call `'N'` in `barcode` never counting as a mismatch, with early
exit above `maxval`. -/
def countMismatches (tag barcode : List Char) (maxval : Nat) : Nat :=
  countMismatchesAux maxval tag barcode 0

/-- The uncapped mismatch count: what countMismatches computes when `maxval`
is never exceeded.  Proof-side companion of `countMismatches`. -/
def mmCount : List Char → List Char → Nat
  | [], _ => 0
  | t :: ts, bs =>
    (if t ≠ bs.headD nulChar ∧ bs.headD nulChar ≠ 'N' then 1 else 0) + mmCount ts bs.tail

/-- split_index from decode.c.  With `dual_tag ≠ 0` the C writes a NUL at
offset `dual_tag - 1` and duplicates from offset `dual_tag`, so the first half
is the first `dual_tag - 1` characters and the character at offset
`dual_tag - 1` lands in neither half.  With `dual_tag = 0` it tokenises with
`strtok_r` on "-": leading separators are skipped, the first token is the
first half (the C leaves the output unassigned when the string holds no
token; we yield the empty list there), and the second token, or the empty
string when there is none, is the second half. -/
def split_index (seq : List Char) (dual_tag : Nat) : List Char × List Char :=
  if dual_tag ≠ 0 then
    (seq.take (dual_tag - 1), seq.drop dual_tag)
  else
    let r1 := seq.dropWhile (fun c => c == sepChar)
    let t1 := r1.takeWhile (fun c => c ≠ sepChar)
    let r2 := (r1.dropWhile (fun c => c ≠ sepChar)).dropWhile (fun c => c == sepChar)
    let t2 := r2.takeWhile (fun c => c ≠ sepChar)
    (t1, t2)

/-- bc_details_t from decode.c: one barcode-table entry with its metrics
counters.  `desc` is `none` when the C pointer is NULL (tag-hop entries). -/
structure BcDetails where
  seq : List Char
  idx1 : List Char
  idx2 : List Char
  name : List Char
  lib : List Char
  sample : List Char
  desc : Option (List Char)
  reads : Nat
  pf_reads : Nat
  perfect : Nat
  pf_perfect : Nat
  one_mismatch : Nat
  pf_one_mismatch : Nat
deriving DecidableEq, Inhabited

/-- The fields of opts_t from decode.c that the decoding core reads.  The
C integers parsed by atoi are `Int`; the index lengths, set from string
lengths at table load, are `Nat`, as is `dual_tag` (an unsigned short). -/
structure Opts where
  max_low_quality_to_convert : Int
  convert_low_quality : Bool
  max_no_calls : Int
  max_mismatches : Int
  min_mismatch_delta : Int
  change_read_name : Bool
  idx1_len : Nat
  idx2_len : Nat
  dual_tag : Nat
deriving DecidableEq, Inhabited

/-- The size the C calls `bcLen` in findBestMatch and the initial best values
in check_tag_hopping: `idx1_len + idx2_len + 1`. -/
def bcLenOf (opts : Opts) : Nat := opts.idx1_len + opts.idx2_len + 1

/-- C `isalpha` on the ASCII letters (barcode characters are ASCII). -/
def isalphaChar (c : Char) : Bool :=
  ('A' ≤ c && c ≤ 'Z') || ('a' ≤ c && c ≤ 'z')

/-- checkBarcodeQuality from decode.c: with no quality string, a copy of the
barcode; with a quality string of a different length, NULL (`none`);
otherwise each position whose barcode character is a letter and whose
phred value `Q[i] - 33` is at most the threshold becomes `'N'`.  A zero
configured `max_low_quality_to_convert` falls back to the default 15
(the C conditional `opts->max_low_quality_to_convert ? ... : 15`). -/
def checkBarcodeQuality (bc_tag : List Char) (qt_tag : Option (List Char)) (opts : Opts) :
    Option (List Char) :=
  match qt_tag with
  | none => some bc_tag
  | some qt =>
    if bc_tag.length ≠ qt.length then none
    else
      let mlq : Int := if opts.max_low_quality_to_convert ≠ 0 then
          opts.max_low_quality_to_convert else 15
      some ((bc_tag.zip qt).map (fun p =>
        if isalphaChar p.1 ∧ (p.2.toNat : Int) - 33 ≤ mlq then 'N' else p.1))

/-- First-match lookup in the barcode hash, by position of insertion: the
hash holds every entry of the array keyed by its `seq` (decode.c builds it
with one HashTableAdd per entry).  Returns the index of the entry found. -/
def hashIdxAux (b : List Char) : List BcDetails → Nat → Option Nat
  | [], _ => none
  | e :: es, i => if e.seq = b then some i else hashIdxAux b es (i + 1)

/-- Exact lookup `HashTableSearch(barcodeHash, barcode, 0)`, as the index of
the matching entry of the array. -/
def hashIdx (arr : List BcDetails) (b : List Char) : Option Nat :=
  hashIdxAux b arr 0

/-- Pair each element with its index, starting at `n`. -/
def enumF {α : Type} : Nat → List α → List (Nat × α)
  | _, [] => []
  | n, x :: xs => (n, x) :: enumF (n + 1) xs

/-- One iteration of the scan loop of findBestMatch from decode.c: compute
`nMismatches` against the entry with cap `nm2Best`; a strictly smaller value
displaces the best (remembering the old best as second best); otherwise it can
still lower the second best.  State: (best entry index, nmBest, nm2Best). -/
def scanStep (barcode : List Char) (st : Option Nat × Nat × Nat) (p : Nat × BcDetails) :
    Option Nat × Nat × Nat :=
  let nm := countMismatches p.2.seq barcode st.2.2
  if nm < st.2.1 then (some p.1, nm, st.2.1)
  else if nm < st.2.2 then (st.1, st.2.1, nm)
  else st

/-- The full scan of findBestMatch over `T[1..]` (entries 1 to end), from
`best_match = NULL`, `nmBest = nm2Best = c`. -/
def scanFold (barcode : List Char) (arr : List BcDetails) (c : Nat) :
    Option Nat × Nat × Nat :=
  (enumF 1 (arr.drop 1)).foldl (scanStep barcode) (none, c, c)

/-- findBestMatch from decode.c, returning the index of the entry whose
pointer the C returns (0 is the sentinel `E0`).  When
`min_mismatch_delta <= 1` an exact hash hit is returned outright; otherwise
the scan runs and the result is accepted iff a best entry exists,
`nmBest <= max_mismatches` and `nm2Best - nmBest >= min_mismatch_delta`;
a rejected scan yields entry 0. -/
def findBestMatch (barcode : List Char) (arr : List BcDetails) (opts : Opts) : Nat :=
  match (if opts.min_mismatch_delta ≤ 1 then hashIdx arr barcode else none) with
  | some i => i
  | none =>
    let s := scanFold barcode arr (bcLenOf opts)
    match s.1 with
    | some i =>
      if (s.2.1 : Int) ≤ opts.max_mismatches ∧
         (s.2.2 : Int) - (s.2.1 : Int) ≥ opts.min_mismatch_delta then i else 0
    | none => 0

/-- updateMetrics from decode.c: bump `reads` (and `pf_reads` when PF), and
the perfect / one-mismatch counters according to the mismatch count of the
entry's `seq` against the observed barcode (99, never 0 or 1, when the
barcode pointer is NULL). -/
def updateMetrics (bcd : BcDetails) (seq : Option (List Char)) (isPf : Bool) : BcDetails :=
  let n : Nat := match seq with
    | none => 99
    | some s => countMismatches bcd.seq s 999
  { bcd with
      reads := bcd.reads + 1
      pf_reads := bcd.pf_reads + (if isPf then 1 else 0)
      perfect := bcd.perfect + (if n = 0 then 1 else 0)
      pf_perfect := bcd.pf_perfect + (if n = 0 ∧ isPf then 1 else 0)
      one_mismatch := bcd.one_mismatch + (if n = 1 then 1 else 0)
      pf_one_mismatch := bcd.pf_one_mismatch + (if n = 1 ∧ isPf then 1 else 0) }

/-- One iteration of the loop of check_tag_hopping from decode.c: the two
halves are matched independently, each keeping its own running best and the
entry that achieved it (the cap passed to countMismatches is the current
best of that half). -/
def hopStep (idx1 idx2 : List Char)
    (st : (Nat × Option BcDetails) × (Nat × Option BcDetails)) (bcd : BcDetails) :
    (Nat × Option BcDetails) × (Nat × Option BcDetails) :=
  let n1 := countMismatches bcd.idx1 idx1 st.1.1
  let n2 := countMismatches bcd.idx2 idx2 st.2.1
  ((if n1 < st.1.1 then (n1, some bcd) else st.1),
   (if n2 < st.2.1 then (n2, some bcd) else st.2))

/-- "DUMMY_LIB". -/
def dummyLib : List Char := ['D', 'U', 'M', 'M', 'Y', '_', 'L', 'I', 'B']

/-- "DUMMY_SAMPLE". -/
def dummySample : List Char :=
  ['D', 'U', 'M', 'M', 'Y', '_', 'S', 'A', 'M', 'P', 'L', 'E']

/-- The tag-hop entry check_tag_hopping creates for a new key: the two
matched halves, name "0", the dummy library and sample, no description,
all counters zero. -/
def newHopEntry (key i1 i2 : List Char) : BcDetails :=
  { seq := key, idx1 := i1, idx2 := i2, name := ['0'], lib := dummyLib,
    sample := dummySample, desc := none, reads := 0, pf_reads := 0, perfect := 0,
    pf_perfect := 0, one_mismatch := 0, pf_one_mismatch := 0 }

/-- check_tag_hopping from decode.c.  The candidate is split; each half is
matched against `T[1..]` independently; a hop is declared iff both best
counts are exactly zero.  On a hop the key `best1.idx1 ⊕ "-" ⊕ best2.idx2`
is interned in the tag-hop hash (an entry is created only when the key is
absent) and the interned entry is returned; otherwise NULL (`none`).  The
tag-hop hash is the list of interned entries in insertion order, each keyed
by its own `seq`. -/
def check_tag_hopping (barcode : List Char) (arr hops : List BcDetails) (opts : Opts) :
    Option BcDetails × List BcDetails :=
  let p := split_index barcode opts.dual_tag
  let c := bcLenOf opts
  let s := (arr.drop 1).foldl (hopStep p.1 p.2) ((c, none), (c, none))
  if s.1.1 = 0 ∧ s.2.1 = 0 then
    match s.1.2, s.2.2 with
    | some m1, some m2 =>
      let key := m1.idx1 ++ sepChar :: m2.idx2
      match hops.find? (fun e => e.seq == key) with
      | some e => (some e, hops)
      | none => (some (newHopEntry key m1.idx1 m2.idx2),
                 hops ++ [newHopEntry key m1.idx1 m2.idx2])
    | _, _ => (none, hops)
  else (none, hops)

/-- Replace the element at index `i` by its image under `f` (the pure image
of the C mutating one entry of the array through an aliased pointer). -/
def modifyAt {α : Type} : List α → Nat → (α → α) → List α
  | [], _, _ => []
  | x :: xs, 0, f => f x :: xs
  | x :: xs, i + 1, f => x :: modifyAt xs i f

/-- Apply `f` to the first element satisfying `p` (the pure image of the C
mutating one hash-stored entry through an aliased pointer). -/
def modifyWhere {α : Type} : List α → (α → Bool) → (α → α) → List α
  | [], _, _ => []
  | x :: xs, p, f => if p x then f x :: xs else x :: modifyWhere xs p f

/-- findBarcodeName from decode.c: the no-call gate routes to entry 0 without
scanning; otherwise findBestMatch picks the entry; metrics are updated on it
when `isUpdateMetrics`; when it is the sentinel and the table is dual-indexed,
check_tag_hopping runs and a returned hop entry gets its metrics updated too.
Returns the chosen entry's name together with the updated barcode array and
tag-hop hash. -/
def findBarcodeName (barcode : List Char) (arr hops : List BcDetails) (opts : Opts)
    (isPf isUpdateMetrics : Bool) : List Char × List BcDetails × List BcDetails :=
  if (noCalls barcode : Int) > opts.max_no_calls then
    let arr' := if isUpdateMetrics then
        modifyAt arr 0 (fun e => updateMetrics e (some barcode) isPf) else arr
    ((arr.getD 0 default).name, arr', hops)
  else
    let i := findBestMatch barcode arr opts
    let arr' := if isUpdateMetrics then
        modifyAt arr i (fun e => updateMetrics e (some barcode) isPf) else arr
    if i = 0 ∧ opts.idx2_len ≠ 0 then
      let th := check_tag_hopping barcode arr' hops opts
      match th.1 with
      | some e =>
        let hops' := if isUpdateMetrics then
            modifyWhere th.2 (fun x => x.seq == e.seq)
              (fun x => updateMetrics x (some barcode) isPf) else th.2
        ((arr.getD i default).name, arr', hops')
      | none => ((arr.getD i default).name, arr', th.2)
    else ((arr.getD i default).name, arr', hops)

/-- One aligned record, reduced to the fields the decoding core reads and
writes: the read name, the RG auxiliary value, the barcode and quality
auxiliary values (none when the tag is absent), and the quality-fail flag. -/
structure BamRec where
  qname : List Char
  rg : Option (List Char)
  bc : Option (List Char)
  qt : Option (List Char)
  qcfail : Bool
deriving DecidableEq, Inhabited

/-- makeNewTag from decode.c: the existing RG value (the empty string when
the record has no RG auxiliary field) with `#` and the entry name appended. -/
def makeNewTag (rec : BamRec) (name : List Char) : List Char :=
  (rec.rg.getD []) ++ '#' :: name

/-- add_suffix from decode.c: append `#<suffix>` to the read name. -/
def add_suffix (qname suffix : List Char) : List Char :=
  qname ++ '#' :: suffix

/-- The barcode-tag scan of processTemplate (decode.c lines 974-991): the
first record carrying the barcode tag supplies the barcode and the quality
tag of that same record; a later record carrying a different barcode value
is the InconsistentTemplateBarcode error (C returns -1). -/
def extractBC (tpl : List BamRec) :
    Except Unit (Option (List Char × Option (List Char))) :=
  tpl.foldl (fun acc rec =>
    match acc with
    | .error e => .error e
    | .ok none =>
      match rec.bc with
      | some b => .ok (some (b, rec.qt))
      | none => .ok none
    | .ok (some (b, q)) =>
      match rec.bc with
      | some b2 => if b2 = b then .ok (some (b, q)) else .error ()
      | none => .ok (some (b, q))) (.ok none)

/-- The candidate-barcode construction of processTemplate (decode.c lines
993-1012): mask when `convert_low_quality` (NULL on a barcode/quality length
mismatch — the C keeps going with the NULL, modelled as an absent candidate);
then split the ORIGINAL `bc_tag` (not the masked string), and when either
half is longer than the table's index length, truncate the halves and
overwrite the candidate with them, rejoined with "-" when dual-indexed. -/
def buildCandidate (bc_tag : List Char) (qt_tag : Option (List Char)) (opts : Opts) :
    Option (List Char) :=
  let newtag := if opts.convert_low_quality then
      checkBarcodeQuality bc_tag qt_tag opts else some bc_tag
  match newtag with
  | none => none
  | some nt =>
    let p := split_index bc_tag opts.dual_tag
    if p.1.length > opts.idx1_len ∨ p.2.length > opts.idx2_len then
      some (p.1.take opts.idx1_len ++
        (if opts.idx2_len ≠ 0 then [sepChar] else []) ++ p.2.take opts.idx2_len)
    else some nt

/-- processTemplate from decode.c, at the level of the modelled record
fields: extract the barcode, build the candidate, and when a candidate
exists resolve the name once (first record, metrics updated, PF from the
first record's quality-fail flag) and rewrite every record's RG (and read
name when `change_read_name`).  A template without a candidate — no barcode
tag, or the masking slip — is passed through unchanged.  Output-stream write
failures are not modelled. -/
def processTemplate (tpl : List BamRec) (arr hops : List BcDetails) (opts : Opts) :
    Except Unit (List BamRec × List BcDetails × List BcDetails) :=
  match extractBC tpl with
  | .error _ => .error ()
  | .ok bcqt =>
    let newtag : Option (List Char) :=
      match bcqt with
      | none => none
      | some (bc, qt) => buildCandidate bc qt opts
    match newtag with
    | none => .ok (tpl, arr, hops)
    | some cand =>
      match tpl with
      | [] => .ok ([], arr, hops)
      | r0 :: _ =>
        let res := findBarcodeName cand arr hops opts (!r0.qcfail) true
        let recs := tpl.map (fun rec =>
          let rec2 := { rec with rg := some (makeNewTag rec res.1) }
          if opts.change_read_name then
            { rec2 with qname := add_suffix rec2.qname res.1 }
          else rec2)
        .ok (recs, res.2.1, res.2.2)

/-- The record-reading loop of decode() from decode.c, at the level of
already-grouped templates: process each in order, stopping at the first
failing template (the C breaks out and exits non-zero; the Bool is true
iff that happened). -/
def processStream (tpls : List (List BamRec)) (arr hops : List BcDetails) (opts : Opts) :
    List BcDetails × List BcDetails × Bool :=
  match tpls with
  | [] => (arr, hops, false)
  | t :: ts =>
    match processTemplate t arr hops opts with
    | .error _ => (arr, hops, true)
    | .ok (_, arr', hops') => processStream ts arr' hops' opts

/-! Proof-side vocabulary used to state the claims. -/

/-- The per-entry Hamming distances (uncapped, no-calls in the candidate
free) of the candidate against `T[1..]`. -/
def distsSeq (b : List Char) (arr : List BcDetails) : List Nat :=
  (arr.drop 1).map (fun e => mmCount e.seq b)

/-- `p` is the pair of the two smallest elements (with multiplicity, in
order) of the bag `bag`. -/
def IsTwoSmallest (bag : List Nat) (p : Nat × Nat) : Prop :=
  p.1 ≤ p.2 ∧ ∃ rest, bag.Perm (p.1 :: p.2 :: rest) ∧ ∀ x ∈ rest, p.2 ≤ x

/-- The per-entry counter inequalities of the conservation claim. -/
def invE (e : BcDetails) : Prop :=
  e.perfect ≤ e.reads ∧ e.one_mismatch ≤ e.reads ∧ e.pf_reads ≤ e.reads ∧
  e.pf_perfect ≤ e.perfect ∧ e.pf_one_mismatch ≤ e.one_mismatch

instance (e : BcDetails) : Decidable (invE e) := by
  unfold invE; infer_instance

/-- Total reads recorded in the table. -/
def sumReads (arr : List BcDetails) : Nat := (arr.map (fun e => e.reads)).sum

/-- Total PF reads recorded in the table. -/
def sumPfReads (arr : List BcDetails) : Nat := (arr.map (fun e => e.pf_reads)).sum

/-- A template carries a barcode tag iff some record has the barcode
auxiliary field. -/
def hasBarcodeTag (tpl : List BamRec) : Bool := tpl.any (fun r => r.bc.isSome)

/-- A template yields a candidate barcode: its barcode scan succeeds with a
barcode present and the candidate construction (masking included) yields a
string. -/
def hasCandidate (tpl : List BamRec) (opts : Opts) : Bool :=
  match extractBC tpl with
  | .ok (some (bc, qt)) => (buildCandidate bc qt opts).isSome
  | _ => false

/-- PF flag of a template: the negated quality-fail flag of its first
record. -/
def tplPf (tpl : List BamRec) : Bool :=
  match tpl with
  | [] => false
  | r :: _ => !r.qcfail

/-! Properties of the mismatch counter. -/

theorem countMismatchesAux_spec (maxval : Nat) (ts : List Char) :
    ∀ (bs : List Char) (n : Nat), n ≤ maxval →
      countMismatchesAux maxval ts bs n =
        if n + mmCount ts bs ≤ maxval then n + mmCount ts bs else maxval + 1 := by
  induction ts with
  | nil =>
    intro bs n h
    simp only [countMismatchesAux, mmCount]
    rw [if_pos (by omega)]
    omega
  | cons t ts ih =>
    intro bs n h
    simp only [countMismatchesAux, mmCount]
    by_cases hc : t ≠ bs.headD nulChar ∧ bs.headD nulChar ≠ 'N'
    · rw [if_pos hc, if_pos hc]
      by_cases h2 : n + 1 > maxval
      · rw [if_pos h2, if_neg (by omega)]
        omega
      · rw [if_neg h2, ih bs.tail (n + 1) (by omega)]
        by_cases h3 : n + 1 + mmCount ts bs.tail ≤ maxval
        · rw [if_pos h3, if_pos (by omega)]
          omega
        · rw [if_neg h3, if_neg (by omega)]
    · rw [if_neg hc, if_neg hc, ih bs.tail n h]
      by_cases h3 : n + mmCount ts bs.tail ≤ maxval
      · rw [if_pos h3, if_pos (by omega)]
        omega
      · rw [if_neg h3, if_neg (by omega)]

/-- countMismatches is the uncapped count clamped at `maxval + 1`. -/
theorem countMismatches_eq_min (tag bs : List Char) (maxval : Nat) :
    countMismatches tag bs maxval = min (mmCount tag bs) (maxval + 1) := by
  unfold countMismatches
  rw [countMismatchesAux_spec maxval tag bs 0 (Nat.zero_le _)]
  by_cases h : mmCount tag bs ≤ maxval
  · rw [if_pos (by omega)]; omega
  · rw [if_neg (by omega)]; omega

/-! List helpers: indexed enumeration, point modification. -/

theorem enumF_getElem? {α : Type} (l : List α) :
    ∀ (n k : Nat), (enumF n l)[k]? = (l[k]?).map (fun x => (n + k, x)) := by
  induction l with
  | nil => intro n k; simp [enumF]
  | cons x xs ih =>
    intro n k
    cases k with
    | zero => simp [enumF]
    | succ k =>
      simp only [enumF, List.getElem?_cons_succ, ih (n + 1) k]
      cases xs[k]? with
      | none => rfl
      | some y => simp; omega

theorem enumF_length {α : Type} (l : List α) : ∀ n, (enumF n l).length = l.length := by
  induction l with
  | nil => intro n; rfl
  | cons x xs ih => intro n; simp [enumF, ih]

theorem modifyAt_length {α : Type} (f : α → α) :
    ∀ (l : List α) (i : Nat), (modifyAt l i f).length = l.length := by
  intro l
  induction l with
  | nil => intro i; rfl
  | cons x xs ih =>
    intro i
    cases i with
    | zero => rfl
    | succ i => simp [modifyAt, ih i]

theorem modifyAt_getElem? {α : Type} (f : α → α) :
    ∀ (l : List α) (i j : Nat),
      (modifyAt l i f)[j]? = if j = i then (l[j]?).map f else l[j]? := by
  intro l
  induction l with
  | nil => intro i j; simp [modifyAt]
  | cons x xs ih =>
    intro i j
    cases i with
    | zero =>
      cases j with
      | zero => simp [modifyAt]
      | succ j => simp [modifyAt]
    | succ i =>
      cases j with
      | zero => simp [modifyAt]
      | succ j =>
        simp only [modifyAt, List.getElem?_cons_succ, ih i j]
        by_cases h : j = i
        · rw [if_pos h, if_pos (by omega)]
        · rw [if_neg h, if_neg (by omega)]

theorem sum_map_modifyAt {α : Type} (g : α → Nat) (f : α → α) (k : Nat)
    (hf : ∀ x, g (f x) = g x + k) :
    ∀ (l : List α) (i : Nat), i < l.length →
      ((modifyAt l i f).map g).sum = (l.map g).sum + k := by
  intro l
  induction l with
  | nil => intro i h; simp at h
  | cons x xs ih =>
    intro i h
    cases i with
    | zero => simp [modifyAt, hf]; omega
    | succ i =>
      have : i < xs.length := by simpa using h
      simp only [modifyAt, List.map_cons, List.sum_cons, ih i this]
      omega

theorem mem_modifyAt {α : Type} (f : α → α) :
    ∀ (l : List α) (i : Nat) (x : α), x ∈ modifyAt l i f →
      x ∈ l ∨ ∃ y, y ∈ l ∧ x = f y := by
  intro l
  induction l with
  | nil => intro i x h; simp [modifyAt] at h
  | cons a as ih =>
    intro i x h
    cases i with
    | zero =>
      simp only [modifyAt, List.mem_cons] at h
      rcases h with h | h
      · exact Or.inr ⟨a, List.mem_cons_self a as, h⟩
      · exact Or.inl (List.mem_cons_of_mem a h)
    | succ i =>
      simp only [modifyAt, List.mem_cons] at h
      rcases h with h | h
      · exact Or.inl (h ▸ List.mem_cons_self a as)
      · rcases ih i x h with h2 | ⟨y, hy, hxy⟩
        · exact Or.inl (List.mem_cons_of_mem a h2)
        · exact Or.inr ⟨y, List.mem_cons_of_mem a hy, hxy⟩

/-! The barcode hash: first-match characterization. -/

theorem hashIdxAux_spec (b : List Char) :
    ∀ (l : List BcDetails) (n i : Nat), hashIdxAux b l n = some i →
      ∃ k, i = n + k ∧ ∃ e, l[k]? = some e ∧ e.seq = b ∧
        ∀ j y, j < k → l[j]? = some y → y.seq ≠ b := by
  intro l
  induction l with
  | nil => intro n i h; simp [hashIdxAux] at h
  | cons e es ih =>
    intro n i h
    simp only [hashIdxAux] at h
    by_cases he : e.seq = b
    · rw [if_pos he] at h
      have hni : n = i := Option.some.inj h
      refine ⟨0, by omega, e, by simp, he, ?_⟩
      intro j y hj; omega
    · rw [if_neg he] at h
      rcases ih (n + 1) i h with ⟨k, hik, e2, hg, hs, hfirst⟩
      refine ⟨k + 1, by omega, e2, by simpa using hg, hs, ?_⟩
      intro j y hj hy
      cases j with
      | zero =>
        simp at hy
        rw [← hy]; exact he
      | succ j =>
        exact hfirst j y (by omega) (by simpa using hy)

theorem hashIdx_spec (arr : List BcDetails) (b : List Char) (i : Nat)
    (h : hashIdx arr b = some i) :
    ∃ e, arr[i]? = some e ∧ e.seq = b ∧
      ∀ j y, j < i → arr[j]? = some y → y.seq ≠ b := by
  rcases hashIdxAux_spec b arr 0 i h with ⟨k, hik, e, hg, hs, hfirst⟩
  have : i = k := by omega
  subst this
  exact ⟨e, hg, hs, hfirst⟩

/-! The best / second-best scan of findBestMatch: the running cap on
countMismatches never changes the outcome, so the fold equals its uncapped
version, whose numeric part keeps the two smallest distances and whose best
pointer is the first entry achieving the minimum. -/

/-- Uncapped variant of `scanStep`. -/
def scanStepU (barcode : List Char) (st : Option Nat × Nat × Nat) (p : Nat × BcDetails) :
    Option Nat × Nat × Nat :=
  let d := mmCount p.2.seq barcode
  if d < st.2.1 then (some p.1, d, st.2.1)
  else if d < st.2.2 then (st.1, st.2.1, d)
  else st

/-- The two-smallest fold on bare numbers: the numeric core of the scan. -/
def pairStep (q : Nat × Nat) (d : Nat) : Nat × Nat :=
  if d < q.1 then (d, q.1) else if d < q.2 then (q.1, d) else q

theorem scanStepU_cases (b : List Char) (o : Option Nat) (b1 b2 : Nat) (p : Nat × BcDetails) :
    scanStepU b (o, b1, b2) p =
      if mmCount p.2.seq b < b1 then (some p.1, mmCount p.2.seq b, b1)
      else if mmCount p.2.seq b < b2 then (o, b1, mmCount p.2.seq b)
      else (o, b1, b2) := rfl

theorem pairStep_cases (b1 b2 d : Nat) :
    pairStep (b1, b2) d =
      if d < b1 then (d, b1) else if d < b2 then (b1, d) else (b1, b2) := rfl

theorem scanStep_eq_U (b : List Char) (st : Option Nat × Nat × Nat) (p : Nat × BcDetails)
    (h : st.2.1 ≤ st.2.2) : scanStep b st p = scanStepU b st p := by
  rcases st with ⟨o, b1, b2⟩
  simp only at h
  rw [scanStepU_cases]
  show (let nm := countMismatches p.2.seq b b2;
    if nm < b1 then ((some p.1 : Option Nat), nm, b1)
    else if nm < b2 then (o, b1, nm) else (o, b1, b2)) = _
  rw [countMismatches_eq_min]
  by_cases h1 : mmCount p.2.seq b < b1
  · have hm : min (mmCount p.2.seq b) (b2 + 1) = mmCount p.2.seq b := by omega
    rw [hm, if_pos h1]
  · by_cases h2 : mmCount p.2.seq b < b2
    · have hm : min (mmCount p.2.seq b) (b2 + 1) = mmCount p.2.seq b := by omega
      rw [hm, if_neg h1, if_pos h2]
    · have hm : ¬ (min (mmCount p.2.seq b) (b2 + 1) < b1) := by omega
      have hm2 : ¬ (min (mmCount p.2.seq b) (b2 + 1) < b2) := by omega
      rw [if_neg hm, if_neg hm2, if_neg h1, if_neg h2]

theorem scanStepU_inv (b : List Char) (st : Option Nat × Nat × Nat) (p : Nat × BcDetails)
    (h : st.2.1 ≤ st.2.2) : (scanStepU b st p).2.1 ≤ (scanStepU b st p).2.2 := by
  rcases st with ⟨o, b1, b2⟩
  simp only at h
  rw [scanStepU_cases]
  by_cases h1 : mmCount p.2.seq b < b1
  · rw [if_pos h1]; exact Nat.le_of_lt h1
  · rw [if_neg h1]
    by_cases h2 : mmCount p.2.seq b < b2
    · rw [if_pos h2]; simpa using Nat.le_of_not_lt h1
    · rw [if_neg h2]; exact h

theorem foldl_scanStep_eq_U (b : List Char) :
    ∀ (l : List (Nat × BcDetails)) (st : Option Nat × Nat × Nat), st.2.1 ≤ st.2.2 →
      l.foldl (scanStep b) st = l.foldl (scanStepU b) st := by
  intro l
  induction l with
  | nil => intro st h; rfl
  | cons p ps ih =>
    intro st h
    simp only [List.foldl_cons]
    rw [scanStep_eq_U b st p h, ih _ (scanStepU_inv b st p h)]

theorem scanFoldU_snd (b : List Char) :
    ∀ (l : List (Nat × BcDetails)) (st : Option Nat × Nat × Nat),
      (l.foldl (scanStepU b) st).2 =
        (l.map (fun p => mmCount p.2.seq b)).foldl pairStep st.2 := by
  intro l
  induction l with
  | nil => intro st; rfl
  | cons p ps ih =>
    intro st
    simp only [List.foldl_cons, List.map_cons, ih]
    congr 1
    rcases st with ⟨o, b1, b2⟩
    rw [scanStepU_cases, pairStep_cases]
    by_cases h1 : mmCount p.2.seq b < b1
    · rw [if_pos h1, if_pos h1]
    · rw [if_neg h1, if_neg h1]
      by_cases h2 : mmCount p.2.seq b < b2
      · rw [if_pos h2, if_pos h2]
      · rw [if_neg h2, if_neg h2]

theorem foldl_pairStep_fst :
    ∀ (l : List Nat) (q : Nat × Nat),
      (l.foldl pairStep q).1 = l.foldl (fun m d => min m d) q.1 := by
  intro l
  induction l with
  | nil => intro q; rfl
  | cons d ds ih =>
    intro q
    rcases q with ⟨b1, b2⟩
    simp only [List.foldl_cons]
    rw [ih]
    have hfst : (pairStep (b1, b2) d).1 = min b1 d := by
      rw [pairStep_cases]
      by_cases h1 : d < b1
      · rw [if_pos h1]; simp only; omega
      · rw [if_neg h1]
        by_cases h2 : d < b2
        · rw [if_pos h2]; simp only; omega
        · rw [if_neg h2]; simp only; omega
    rw [hfst]

theorem foldl_pairStep_mono :
    ∀ (l : List Nat) (q : Nat × Nat), q.1 ≤ q.2 →
      (l.foldl pairStep q).1 ≤ (l.foldl pairStep q).2 ∧
      (l.foldl pairStep q).1 ≤ q.1 ∧ (l.foldl pairStep q).2 ≤ q.2 := by
  intro l
  induction l with
  | nil => intro q h; exact ⟨h, Nat.le_refl _, Nat.le_refl _⟩
  | cons d ds ih =>
    intro q h
    rcases q with ⟨b1, b2⟩
    simp only at h
    simp only [List.foldl_cons]
    rw [pairStep_cases]
    by_cases h1 : d < b1
    · rw [if_pos h1]
      rcases ih (d, b1) (by omega) with ⟨a, c, e⟩
      simp only at a c e
      exact ⟨a, by omega, by omega⟩
    · rw [if_neg h1]
      by_cases h2 : d < b2
      · rw [if_pos h2]
        rcases ih (b1, d) (by omega) with ⟨a, c, e⟩
        simp only at a c e
        exact ⟨a, c, by omega⟩
      · rw [if_neg h2]
        exact ih (b1, b2) h

theorem foldl_pairStep_twoSmallest :
    ∀ (l : List Nat) (b1 b2 : Nat), b1 ≤ b2 →
      IsTwoSmallest (b1 :: b2 :: l) (l.foldl pairStep (b1, b2)) := by
  intro l
  induction l with
  | nil =>
    intro b1 b2 h
    exact ⟨h, [], List.Perm.refl _, by simp⟩
  | cons d ds ih =>
    intro b1 b2 h
    simp only [List.foldl_cons]
    have key : ∀ s1 s2 dropped : Nat, s1 ≤ s2 → s2 ≤ dropped →
        (b1 :: b2 :: d :: ds).Perm (s1 :: s2 :: dropped :: ds) →
        IsTwoSmallest (b1 :: b2 :: d :: ds) (ds.foldl pairStep (s1, s2)) := by
      intro s1 s2 dropped hs hsd hperm
      rcases ih s1 s2 hs with ⟨hle, rest, hp, hrest⟩
      have hmono := foldl_pairStep_mono ds (s1, s2) hs
      refine ⟨hle, dropped :: rest, ?_, ?_⟩
      · have m1 : (s1 :: s2 :: dropped :: ds).Perm (dropped :: s1 :: s2 :: ds) :=
          (((List.Perm.swap dropped s2 ds).cons s1).trans
            (List.Perm.swap dropped s1 (s2 :: ds)))
        have c1 := hp.cons dropped
        have m2 : (dropped :: (ds.foldl pairStep (s1, s2)).1 ::
            (ds.foldl pairStep (s1, s2)).2 :: rest).Perm
            ((ds.foldl pairStep (s1, s2)).1 ::
              (ds.foldl pairStep (s1, s2)).2 :: dropped :: rest) :=
          ((List.Perm.swap (ds.foldl pairStep (s1, s2)).1 dropped
              ((ds.foldl pairStep (s1, s2)).2 :: rest)).trans
            ((List.Perm.swap (ds.foldl pairStep (s1, s2)).2 dropped rest).cons
              (ds.foldl pairStep (s1, s2)).1))
        exact hperm.trans (m1.trans (c1.trans m2))
      · intro x hx
        rcases List.mem_cons.mp hx with hx | hx
        · subst hx
          exact Nat.le_trans hmono.2.2 hsd
        · exact hrest x hx
    by_cases h1 : d < b1
    · have hstep : pairStep (b1, b2) d = (d, b1) := by rw [pairStep_cases, if_pos h1]
      rw [hstep]
      exact key d b1 b2 (by omega) h
        (((List.Perm.swap d b2 ds).cons b1).trans (List.Perm.swap d b1 (b2 :: ds)))
    · by_cases h2 : d < b2
      · have hstep : pairStep (b1, b2) d = (b1, d) := by
          rw [pairStep_cases, if_neg h1, if_pos h2]
        rw [hstep]
        exact key b1 d b2 (by omega) (by omega) ((List.Perm.swap d b2 ds).cons b1)
      · have hstep : pairStep (b1, b2) d = (b1, b2) := by
          rw [pairStep_cases, if_neg h1, if_neg h2]
        rw [hstep]
        exact key b1 b2 d h (by omega) (List.Perm.refl _)

/-- The best pointer of the uncapped scan: untouched when the minimum does
not improve on the initial best, otherwise the first element achieving the
final minimum. -/
theorem scanFoldU_best (b : List Char) :
    ∀ (l : List (Nat × BcDetails)) (o : Option Nat) (b1 b2 : Nat), b1 ≤ b2 →
      ((l.foldl (scanStepU b) (o, b1, b2)).2.1 = b1 ∧
        (l.foldl (scanStepU b) (o, b1, b2)).1 = o) ∨
      ((l.foldl (scanStepU b) (o, b1, b2)).2.1 < b1 ∧
        ∃ (k : Nat) (p : Nat × BcDetails), l[k]? = some p ∧
          (l.foldl (scanStepU b) (o, b1, b2)).1 = some p.1 ∧
          mmCount p.2.seq b = (l.foldl (scanStepU b) (o, b1, b2)).2.1 ∧
          ∀ (j : Nat) (q : Nat × BcDetails), j < k → l[j]? = some q →
            (l.foldl (scanStepU b) (o, b1, b2)).2.1 < mmCount q.2.seq b) := by
  intro l
  induction l with
  | nil => intro o b1 b2 h; exact Or.inl ⟨rfl, rfl⟩
  | cons p ps ih =>
    intro o b1 b2 h
    simp only [List.foldl_cons]
    rw [scanStepU_cases]
    by_cases h1 : mmCount p.2.seq b < b1
    · rw [if_pos h1]
      rcases ih (some p.1) (mmCount p.2.seq b) b1 (by omega) with
        ⟨ha, hb⟩ | ⟨ha, k, q, hk, hq, hm, hfirst⟩
      · refine Or.inr ⟨by omega, 0, p, by simp, hb, by omega, ?_⟩
        intro j q hj; omega
      · refine Or.inr ⟨by omega, k + 1, q, ?_, hq, hm, ?_⟩
        · rw [List.getElem?_cons_succ]; exact hk
        · intro j r hj hr
          cases j with
          | zero =>
            rw [List.getElem?_cons_zero] at hr
            have : p = r := Option.some.inj hr
            rw [← this]; omega
          | succ j =>
            rw [List.getElem?_cons_succ] at hr
            exact hfirst j r (by omega) hr
    · rw [if_neg h1]
      by_cases h2 : mmCount p.2.seq b < b2
      · rw [if_pos h2]
        rcases ih o b1 (mmCount p.2.seq b) (by omega) with
          ⟨ha, hb⟩ | ⟨ha, k, q, hk, hq, hm, hfirst⟩
        · exact Or.inl ⟨ha, hb⟩
        · refine Or.inr ⟨ha, k + 1, q, ?_, hq, hm, ?_⟩
          · rw [List.getElem?_cons_succ]; exact hk
          · intro j r hj hr
            cases j with
            | zero =>
              rw [List.getElem?_cons_zero] at hr
              have : p = r := Option.some.inj hr
              rw [← this]; omega
            | succ j =>
              rw [List.getElem?_cons_succ] at hr
              exact hfirst j r (by omega) hr
      · rw [if_neg h2]
        rcases ih o b1 b2 h with ⟨ha, hb⟩ | ⟨ha, k, q, hk, hq, hm, hfirst⟩
        · exact Or.inl ⟨ha, hb⟩
        · refine Or.inr ⟨ha, k + 1, q, ?_, hq, hm, ?_⟩
          · rw [List.getElem?_cons_succ]; exact hk
          · intro j r hj hr
            cases j with
            | zero =>
              rw [List.getElem?_cons_zero] at hr
              have : p = r := Option.some.inj hr
              rw [← this]; omega
            | succ j =>
              rw [List.getElem?_cons_succ] at hr
              exact hfirst j r (by omega) hr

/-! Running-minimum folds. -/

theorem foldl_min_le_init : ∀ (l : List Nat) (a : Nat),
    l.foldl (fun m d => min m d) a ≤ a := by
  intro l
  induction l with
  | nil => intro a; exact Nat.le_refl a
  | cons d ds ih =>
    intro a
    simp only [List.foldl_cons]
    exact Nat.le_trans (ih (min a d)) (by omega)

theorem foldl_min_le_mem : ∀ (l : List Nat) (a x : Nat), x ∈ l →
    l.foldl (fun m d => min m d) a ≤ x := by
  intro l
  induction l with
  | nil => intro a x hx; simp at hx
  | cons d ds ih =>
    intro a x hx
    simp only [List.foldl_cons]
    rcases List.mem_cons.mp hx with hx | hx
    · subst hx
      exact Nat.le_trans (foldl_min_le_init ds (min a x)) (by omega)
    · exact ih (min a d) x hx

theorem foldl_min_reached : ∀ (l : List Nat) (a : Nat),
    l.foldl (fun m d => min m d) a = a ∨ l.foldl (fun m d => min m d) a ∈ l := by
  intro l
  induction l with
  | nil => intro a; exact Or.inl rfl
  | cons d ds ih =>
    intro a
    simp only [List.foldl_cons]
    rcases ih (min a d) with h | h
    · by_cases hd : d ≤ a
      · right
        rw [h]
        simp only [List.mem_cons]
        left; omega
      · left; rw [h]; omega
    · exact Or.inr (List.mem_cons_of_mem d h)

theorem foldl_min_eq_zero : ∀ (l : List Nat) (a : Nat),
    (l.foldl (fun m d => min m d) a = 0 ↔ a = 0 ∨ 0 ∈ l) := by
  intro l a
  constructor
  · intro h
    rcases foldl_min_reached l a with h2 | h2
    · left; omega
    · right; rw [← h]; exact h2
  · intro h
    rcases h with h | h
    · have := foldl_min_le_init l a
      omega
    · have := foldl_min_le_mem l a 0 h
      omega

/-! The per-half trackers of check_tag_hopping. -/

/-- One uncapped tracker step: keep the running best distance and the entry
that first achieved it. -/
def trackStep (d : BcDetails → Nat) (st : Nat × Option BcDetails) (x : BcDetails) :
    Nat × Option BcDetails :=
  if d x < st.1 then (d x, some x) else st

theorem hopStep_eq_track (i1 i2 : List Char) (s t : Nat × Option BcDetails) (e : BcDetails) :
    hopStep i1 i2 (s, t) e =
      (trackStep (fun x => mmCount x.idx1 i1) s e,
       trackStep (fun x => mmCount x.idx2 i2) t e) := by
  rcases s with ⟨c1, o1⟩
  rcases t with ⟨c2, o2⟩
  show ((if countMismatches e.idx1 i1 c1 < c1 then (countMismatches e.idx1 i1 c1, some e)
          else (c1, o1)),
        (if countMismatches e.idx2 i2 c2 < c2 then (countMismatches e.idx2 i2 c2, some e)
          else (c2, o2))) = _
  rw [countMismatches_eq_min, countMismatches_eq_min]
  unfold trackStep
  congr 1
  · by_cases h1 : mmCount e.idx1 i1 < c1
    · have hm : min (mmCount e.idx1 i1) (c1 + 1) = mmCount e.idx1 i1 := by omega
      rw [hm, if_pos h1]
    · have hm : ¬ (min (mmCount e.idx1 i1) (c1 + 1) < c1) := by omega
      rw [if_neg hm, if_neg h1]
  · by_cases h2 : mmCount e.idx2 i2 < c2
    · have hm : min (mmCount e.idx2 i2) (c2 + 1) = mmCount e.idx2 i2 := by omega
      rw [hm, if_pos h2]
    · have hm : ¬ (min (mmCount e.idx2 i2) (c2 + 1) < c2) := by omega
      rw [if_neg hm, if_neg h2]

theorem foldl_hopStep_eq (i1 i2 : List Char) :
    ∀ (l : List BcDetails) (s t : Nat × Option BcDetails),
      l.foldl (hopStep i1 i2) (s, t) =
        (l.foldl (trackStep (fun x => mmCount x.idx1 i1)) s,
         l.foldl (trackStep (fun x => mmCount x.idx2 i2)) t) := by
  intro l
  induction l with
  | nil => intro s t; rfl
  | cons e es ih =>
    intro s t
    simp only [List.foldl_cons]
    rw [hopStep_eq_track, ih]

theorem trackFold_fst (d : BcDetails → Nat) :
    ∀ (l : List BcDetails) (st : Nat × Option BcDetails),
      (l.foldl (trackStep d) st).1 = (l.map d).foldl (fun m x => min m x) st.1 := by
  intro l
  induction l with
  | nil => intro st; rfl
  | cons e es ih =>
    intro st
    simp only [List.foldl_cons, List.map_cons]
    rw [ih]
    have : (trackStep d st e).1 = min st.1 (d e) := by
      unfold trackStep
      by_cases h : d e < st.1
      · rw [if_pos h]; simp only; omega
      · rw [if_neg h]; omega
    rw [this]

theorem trackFold_best (d : BcDetails → Nat) :
    ∀ (l : List BcDetails) (c : Nat) (o : Option BcDetails),
      ((l.foldl (trackStep d) (c, o)).1 = c ∧ (l.foldl (trackStep d) (c, o)).2 = o) ∨
      ((l.foldl (trackStep d) (c, o)).1 < c ∧
        ∃ (k : Nat) (x : BcDetails), l[k]? = some x ∧
          (l.foldl (trackStep d) (c, o)).2 = some x ∧
          d x = (l.foldl (trackStep d) (c, o)).1 ∧
          ∀ (j : Nat) (y : BcDetails), j < k → l[j]? = some y →
            (l.foldl (trackStep d) (c, o)).1 < d y) := by
  intro l
  induction l with
  | nil => intro c o; exact Or.inl ⟨rfl, rfl⟩
  | cons e es ih =>
    intro c o
    simp only [List.foldl_cons]
    by_cases h1 : d e < c
    · have hstep : trackStep d (c, o) e = (d e, some e) := by
        unfold trackStep; rw [if_pos h1]
      rw [hstep]
      rcases ih (d e) (some e) with ⟨ha, hb⟩ | ⟨ha, k, x, hk, hx, hd, hfirst⟩
      · refine Or.inr ⟨by omega, 0, e, by simp, hb, by omega, ?_⟩
        intro j y hj; omega
      · refine Or.inr ⟨by omega, k + 1, x, ?_, hx, hd, ?_⟩
        · rw [List.getElem?_cons_succ]; exact hk
        · intro j y hj hy
          cases j with
          | zero =>
            rw [List.getElem?_cons_zero] at hy
            have : e = y := Option.some.inj hy
            rw [← this]; omega
          | succ j =>
            rw [List.getElem?_cons_succ] at hy
            exact hfirst j y (by omega) hy
    · have hstep : trackStep d (c, o) e = (c, o) := by
        unfold trackStep; rw [if_neg h1]
      rw [hstep]
      rcases ih c o with ⟨ha, hb⟩ | ⟨ha, k, x, hk, hx, hd, hfirst⟩
      · exact Or.inl ⟨ha, hb⟩
      · refine Or.inr ⟨ha, k + 1, x, ?_, hx, hd, ?_⟩
        · rw [List.getElem?_cons_succ]; exact hk
        · intro j y hj hy
          cases j with
          | zero =>
            rw [List.getElem?_cons_zero] at hy
            have : e = y := Option.some.inj hy
            rw [← this]; omega
          | succ j =>
            rw [List.getElem?_cons_succ] at hy
            exact hfirst j y (by omega) hy

/-! Bridging the scan to the entry array. -/

theorem enumF_map_snd {α β : Type} (f : α → β) :
    ∀ (l : List α) (n : Nat), (enumF n l).map (fun p => f p.2) = l.map f := by
  intro l
  induction l with
  | nil => intro n; rfl
  | cons x xs ih => intro n; simp [enumF, ih]

/-- The scan of findBestMatch equals its uncapped version. -/
theorem scanFold_eq_U (b : List Char) (arr : List BcDetails) (c : Nat) :
    scanFold b arr c = (enumF 1 (arr.drop 1)).foldl (scanStepU b) (none, c, c) :=
  foldl_scanStep_eq_U b (enumF 1 (arr.drop 1)) (none, c, c) (Nat.le_refl c)

/-- The numeric part of the scan is the two-smallest fold of the distance
list started at `(c, c)`. -/
theorem scanFold_snd (b : List Char) (arr : List BcDetails) (c : Nat) :
    (scanFold b arr c).2 = (distsSeq b arr).foldl pairStep (c, c) := by
  rw [scanFold_eq_U, scanFoldU_snd]
  unfold distsSeq
  rw [enumF_map_snd (fun e => mmCount e.seq b) (arr.drop 1) 1]

/-- Full characterization of the scan against the entry array: either nothing
improved on the initial value `c` and no best entry exists, or the best value
is the distance of a first-achieving entry at an index in `[1, |arr|)`. -/
theorem scanFold_best (b : List Char) (arr : List BcDetails) (c : Nat) :
    ((scanFold b arr c).2.1 = c ∧ (scanFold b arr c).1 = none) ∨
    ((scanFold b arr c).2.1 < c ∧
      ∃ (k : Nat) (e : BcDetails), arr[k]? = some e ∧ 1 ≤ k ∧
        (scanFold b arr c).1 = some k ∧ mmCount e.seq b = (scanFold b arr c).2.1 ∧
        ∀ (j : Nat) (e2 : BcDetails), 1 ≤ j → j < k → arr[j]? = some e2 →
          (scanFold b arr c).2.1 < mmCount e2.seq b) := by
  rw [scanFold_eq_U]
  rcases scanFoldU_best b (enumF 1 (arr.drop 1)) none c c (Nat.le_refl c) with
    ⟨h1, h2⟩ | ⟨h1, k, p, hk, hp, hm, hfirst⟩
  · exact Or.inl ⟨h1, h2⟩
  · rw [enumF_getElem? (arr.drop 1) 1 k] at hk
    rcases heq : (arr.drop 1)[k]? with _ | x
    · rw [heq] at hk
      exact Option.noConfusion hk
    · rw [heq] at hk
      have hpx : p = (1 + k, x) := (Option.some.inj hk).symm
      subst hpx
      have harr : arr[1 + k]? = some x := by
        rw [← List.getElem?_drop]; exact heq
      refine Or.inr ⟨h1, 1 + k, x, harr, by omega, hp, hm, ?_⟩
      intro j e2 hj1 hjk hje
      have hj0 : j - 1 < k := by omega
      have hje2 : (enumF 1 (arr.drop 1))[j - 1]? = some (j, e2) := by
        rw [enumF_getElem? (arr.drop 1) 1 (j - 1), List.getElem?_drop]
        have : 1 + (j - 1) = j := by omega
        rw [this, hje]
        rfl
      exact hfirst (j - 1) (j, e2) hj0 hje2

/-- With the exact fast path off (delta above 1, or no hash hit), findBestMatch
is decided by the scan. -/
theorem findBestMatch_scan (b : List Char) (arr : List BcDetails) (opts : Opts)
    (hfast : opts.min_mismatch_delta > 1 ∨ hashIdx arr b = none) :
    findBestMatch b arr opts =
      (match (scanFold b arr (bcLenOf opts)).1 with
       | some i =>
         if ((scanFold b arr (bcLenOf opts)).2.1 : Int) ≤ opts.max_mismatches ∧
            ((scanFold b arr (bcLenOf opts)).2.2 : Int) -
              ((scanFold b arr (bcLenOf opts)).2.1 : Int) ≥ opts.min_mismatch_delta
         then i else 0
       | none => 0) := by
  unfold findBestMatch
  have h0 : (if opts.min_mismatch_delta ≤ 1 then hashIdx arr b else none) = none := by
    rcases hfast with h | h
    · rw [if_neg (by omega)]
    · by_cases hd : opts.min_mismatch_delta ≤ 1
      · rw [if_pos hd]; exact h
      · rw [if_neg hd]
  rw [h0]

/-! Concrete scenario data for counterexamples and witnesses. -/

/-- A loaded table entry with the given sequences and name, empty library,
sample and description and zero counters, as loadBarcodeFile creates them. -/
def mkEntry (seq idx1 idx2 name : List Char) : BcDetails :=
  ⟨seq, idx1, idx2, name, [], [], some [], 0, 0, 0, 0, 0, 0⟩

/-- Defaults with a single index of length 2. -/
def c1Opts : Opts := ⟨15, false, 2, 1, 1, false, 2, 0, 0⟩

/-- Table NN (sentinel), NA, CA: the N in an entry seq makes a tie at
distance zero possible. -/
def c1Arr : List BcDetails :=
  [mkEntry ['N', 'N'] ['N', 'N'] [] ['0'],
   mkEntry ['N', 'A'] ['N', 'A'] [] ['x'],
   mkEntry ['C', 'A'] ['C', 'A'] [] ['y']]

/-- Single index of length 4, `min_mismatch_delta = 2` (fast path off). -/
def c2Opts : Opts := ⟨15, false, 2, 1, 2, false, 4, 0, 0⟩

/-- Table NNNN (sentinel), AAAA, AAAT: two entries at distance 1. -/
def c2Arr : List BcDetails :=
  [mkEntry ['N', 'N', 'N', 'N'] ['N', 'N', 'N', 'N'] [] ['0'],
   mkEntry ['A', 'A', 'A', 'A'] ['A', 'A', 'A', 'A'] [] ['x'],
   mkEntry ['A', 'A', 'A', 'T'] ['A', 'A', 'A', 'T'] [] ['y']]

/-- Table NNNN (sentinel), AAAA, CCCC: well-separated entries. -/
def cwArr : List BcDetails :=
  [mkEntry ['N', 'N', 'N', 'N'] ['N', 'N', 'N', 'N'] [] ['0'],
   mkEntry ['A', 'A', 'A', 'A'] ['A', 'A', 'A', 'A'] [] ['x'],
   mkEntry ['C', 'C', 'C', 'C'] ['C', 'C', 'C', 'C'] [] ['y']]

/-- Single index of length 4, all defaults. -/
def cdOpts : Opts := ⟨15, false, 2, 1, 1, false, 4, 0, 0⟩

/-! C1.  For every candidate that passes the no-call gate, the claim states
that findBestMatch returns a non-sentinel entry iff
`best ≤ max_mismatches ∧ second_best − best ≥ min_mismatch_delta`, keeping
the first entry achieving the best distance.  The code violates the iff when
the exact-hash fast path fires on a candidate that ties at distance zero with
a second entry (`N` in a table sequence makes the tie possible): the hash
entry is returned although the delta test fails.  The amended claim
restricts the iff to the case where the fast path is off, and adds the
condition that the scan found some entry below its initial value
`idx1_len + idx2_len + 1`. -/

/-- C1 (counterexample): with the default `min_mismatch_delta = 1` and table
NN / NA / CA, the candidate NA passes the no-call gate, the scan's best and
second-best are both 0 — so the claimed acceptance formula rejects — yet
findBestMatch returns entry 1 through the exact-hash fast path, a
non-sentinel. -/
theorem C1_counterexample :
    (noCalls ['N', 'A'] : Int) ≤ c1Opts.max_no_calls ∧
    findBestMatch ['N', 'A'] c1Arr c1Opts = 1 ∧
    (scanFold ['N', 'A'] c1Arr (bcLenOf c1Opts)).2.1 = 0 ∧
    (scanFold ['N', 'A'] c1Arr (bcLenOf c1Opts)).2.2 = 0 ∧
    ¬ (((scanFold ['N', 'A'] c1Arr (bcLenOf c1Opts)).2.1 : Int) ≤ c1Opts.max_mismatches ∧
       ((scanFold ['N', 'A'] c1Arr (bcLenOf c1Opts)).2.2 : Int) -
         ((scanFold ['N', 'A'] c1Arr (bcLenOf c1Opts)).2.1 : Int) ≥
           c1Opts.min_mismatch_delta) := by
  decide

/-- C1 (amended): when the exact fast path does not fire
(`min_mismatch_delta > 1` or no exact hash hit), findBestMatch returns a
non-sentinel entry iff the scan's best is below `idx1_len + idx2_len + 1`,
`best ≤ max_mismatches` and `second_best − best ≥ min_mismatch_delta`; the
scan's pair (best, second best) is the pair of two smallest elements of the
distance bag, the best is a lower bound of all distances over `T[1..]`, and
the returned entry is the first one achieving the best distance. -/
theorem C1_delta_discipline (b : List Char) (arr : List BcDetails) (opts : Opts)
    (hfast : opts.min_mismatch_delta > 1 ∨ hashIdx arr b = none) :
    IsTwoSmallest (bcLenOf opts :: bcLenOf opts :: distsSeq b arr)
      (scanFold b arr (bcLenOf opts)).2
    ∧ (∀ e ∈ arr.drop 1, (scanFold b arr (bcLenOf opts)).2.1 ≤ mmCount e.seq b)
    ∧ (findBestMatch b arr opts ≠ 0 ↔
        ((scanFold b arr (bcLenOf opts)).2.1 < bcLenOf opts ∧
         ((scanFold b arr (bcLenOf opts)).2.1 : Int) ≤ opts.max_mismatches ∧
         ((scanFold b arr (bcLenOf opts)).2.2 : Int) -
           ((scanFold b arr (bcLenOf opts)).2.1 : Int) ≥ opts.min_mismatch_delta))
    ∧ (findBestMatch b arr opts ≠ 0 →
        ∃ (k : Nat) (e : BcDetails), arr[k]? = some e ∧ findBestMatch b arr opts = k ∧
          1 ≤ k ∧ mmCount e.seq b = (scanFold b arr (bcLenOf opts)).2.1 ∧
          ∀ (j : Nat) (e2 : BcDetails), 1 ≤ j → j < k → arr[j]? = some e2 →
            (scanFold b arr (bcLenOf opts)).2.1 < mmCount e2.seq b) := by
  refine ⟨?_, ?_, ?_⟩
  · have h := foldl_pairStep_twoSmallest (distsSeq b arr) (bcLenOf opts) (bcLenOf opts)
      (Nat.le_refl _)
    rw [← scanFold_snd] at h
    exact h
  · intro e he
    have h1 : (scanFold b arr (bcLenOf opts)).2.1 =
        (distsSeq b arr).foldl (fun m d => min m d) (bcLenOf opts) := by
      have h2 : (scanFold b arr (bcLenOf opts)).2.1 =
          ((distsSeq b arr).foldl pairStep (bcLenOf opts, bcLenOf opts)).1 := by
        rw [scanFold_snd]
      rw [h2, foldl_pairStep_fst]
    rw [h1]
    exact foldl_min_le_mem _ _ _ (List.mem_map_of_mem _ he)
  · have hscan := findBestMatch_scan b arr opts hfast
    rcases scanFold_best b arr (bcLenOf opts) with
      ⟨h1, h2⟩ | ⟨h1, k, e, hk, hk1, hs1, hm, hfirst⟩
    · have hres : findBestMatch b arr opts = 0 := by rw [hscan, h2]
      constructor
      · constructor
        · intro hne; exact absurd hres hne
        · rintro ⟨ha, _, _⟩; omega
      · intro hne; exact absurd hres hne
    · by_cases hacc : ((scanFold b arr (bcLenOf opts)).2.1 : Int) ≤ opts.max_mismatches ∧
          ((scanFold b arr (bcLenOf opts)).2.2 : Int) -
            ((scanFold b arr (bcLenOf opts)).2.1 : Int) ≥ opts.min_mismatch_delta
      · have hres : findBestMatch b arr opts = k := by
          rw [hscan, hs1]
          exact if_pos hacc
        constructor
        · constructor
          · intro _; exact ⟨h1, hacc.1, hacc.2⟩
          · intro _; rw [hres]; omega
        · intro _; exact ⟨k, e, hk, hres, hk1, hm, hfirst⟩
      · have hres : findBestMatch b arr opts = 0 := by
          rw [hscan, hs1]
          exact if_neg hacc
        constructor
        · constructor
          · intro hne; exact absurd hres hne
          · rintro ⟨_, hb, hc2⟩; exact absurd ⟨hb, hc2⟩ hacc
        · intro hne; exact absurd hres hne

/-- C1 (witness): the amended discipline applied to the table
NNNN / AAAA / CCCC with `min_mismatch_delta = 2` and candidate AAAA. -/
theorem C1_delta_discipline_witness :
    (c2Opts.min_mismatch_delta > 1 ∨ hashIdx cwArr ['A', 'A', 'A', 'A'] = none) ∧
    (findBestMatch ['A', 'A', 'A', 'A'] cwArr c2Opts ≠ 0 ↔
      ((scanFold ['A', 'A', 'A', 'A'] cwArr (bcLenOf c2Opts)).2.1 < bcLenOf c2Opts ∧
       ((scanFold ['A', 'A', 'A', 'A'] cwArr (bcLenOf c2Opts)).2.1 : Int) ≤
         c2Opts.max_mismatches ∧
       ((scanFold ['A', 'A', 'A', 'A'] cwArr (bcLenOf c2Opts)).2.2 : Int) -
         ((scanFold ['A', 'A', 'A', 'A'] cwArr (bcLenOf c2Opts)).2.1 : Int) ≥
           c2Opts.min_mismatch_delta)) :=
  ⟨Or.inl (by decide),
   (C1_delta_discipline ['A', 'A', 'A', 'A'] cwArr c2Opts (Or.inl (by decide))).2.2.1⟩

/-! C2.  The claim states exact-match agreement for ALL values of
max_mismatches and min_mismatch_delta, in particular when
`min_mismatch_delta > 1`.  The code violates it there: with the fast path
disabled, the full scan's delta test can reject the exact hit. -/

/-- C2 (counterexample): table NNNN / AAAA / AAAT, `min_mismatch_delta = 2`;
the candidate equals entry 1's sequence exactly, but findBestMatch returns
the sentinel (entry 0), because the second-best distance is 1 < 2. -/
theorem C2_counterexample :
    (c2Arr.getD 1 default).seq = ['A', 'A', 'A', 'A'] ∧
    findBestMatch ['A', 'A', 'A', 'A'] c2Arr c2Opts = 0 := by
  decide

/-- C2 (amended): when `min_mismatch_delta ≤ 1`, a candidate equal to a table
sequence is resolved by the exact-hash fast path for every value of
`max_mismatches`: findBestMatch returns the hash entry, the first entry of
the table whose `seq` equals the candidate.  (When `min_mismatch_delta > 1`
the fast path is disabled and the delta acceptance can reject the exact
match, as the counterexample shows.) -/
theorem C2_exact_fast_path (b : List Char) (arr : List BcDetails) (opts : Opts) (i : Nat)
    (hd : opts.min_mismatch_delta ≤ 1) (hh : hashIdx arr b = some i) :
    findBestMatch b arr opts = i ∧
    ∃ e, arr[i]? = some e ∧ e.seq = b ∧
      ∀ (j : Nat) (y : BcDetails), j < i → arr[j]? = some y → y.seq ≠ b := by
  constructor
  · unfold findBestMatch
    rw [if_pos hd, hh]
  · exact hashIdx_spec arr b i hh

/-- C2 (witness): with defaults, candidate AAAA on table NNNN / AAAA / CCCC
is returned by the fast path as entry 1. -/
theorem C2_exact_fast_path_witness :
    cdOpts.min_mismatch_delta ≤ 1 ∧ hashIdx cwArr ['A', 'A', 'A', 'A'] = some 1 ∧
    findBestMatch ['A', 'A', 'A', 'A'] cwArr cdOpts = 1 :=
  ⟨by decide, by decide,
   (C2_exact_fast_path ['A', 'A', 'A', 'A'] cwArr cdOpts 1 (by decide) (by decide)).1⟩

/-! C3.  The claim states that with `dual_tag > 0` the first half is the
first `dual_tag` characters and every character of `seq` lands in exactly
one half.  The code drops the character at offset `dual_tag − 1`: the first
half has only `dual_tag − 1` characters. -/

/-- C3 (counterexample): splitting ABCDEF at `dual_tag = 3` yields
(AB, DEF), not (ABC, DEF): the first half is not the first three characters,
and the character C appears in neither half. -/
theorem C3_counterexample :
    split_index ['A', 'B', 'C', 'D', 'E', 'F'] 3 = (['A', 'B'], ['D', 'E', 'F']) ∧
    (split_index ['A', 'B', 'C', 'D', 'E', 'F'] 3).1 ≠ ['A', 'B', 'C'] ∧
    'C' ∉ (split_index ['A', 'B', 'C', 'D', 'E', 'F'] 3).1 ∧
    'C' ∉ (split_index ['A', 'B', 'C', 'D', 'E', 'F'] 3).2 := by
  decide

/-- C3 (amended): with `0 < dual_tag ≤ |seq|`, the first half is the first
`dual_tag − 1` characters of `seq`, the second half is `seq[dual_tag..]`
(0-based), and `seq` is the first half, then the dropped character at offset
`dual_tag − 1`, then the second half: every character other than the dropped
one appears in exactly one half. -/
theorem C3_split_dual (seq : List Char) (d : Nat) (h1 : 0 < d) (h2 : d ≤ seq.length) :
    (split_index seq d).1 = seq.take (d - 1) ∧
    (split_index seq d).2 = seq.drop d ∧
    (split_index seq d).1.length = d - 1 ∧
    (split_index seq d).2.length = seq.length - d ∧
    ∀ (h3 : d - 1 < seq.length),
      (split_index seq d).1 ++ seq.get ⟨d - 1, h3⟩ :: (split_index seq d).2 = seq := by
  have hsp : split_index seq d = (seq.take (d - 1), seq.drop d) := by
    unfold split_index
    rw [if_pos (by omega)]
  refine ⟨by rw [hsp], by rw [hsp], ?_, ?_, ?_⟩
  · rw [hsp]
    simp only [List.length_take]
    omega
  · rw [hsp]
    simp only [List.length_drop]
  · intro h3
    rw [hsp]
    have hd : seq.drop (d - 1) = seq.get ⟨d - 1, h3⟩ :: seq.drop d := by
      rw [List.drop_eq_getElem_cons h3]
      have : d - 1 + 1 = d := by omega
      rw [this]
      rfl
    calc seq.take (d - 1) ++ seq.get ⟨d - 1, h3⟩ :: seq.drop d
        = seq.take (d - 1) ++ seq.drop (d - 1) := by rw [hd]
      _ = seq := List.take_append_drop (d - 1) seq

/-- C3 (witness): the amended split applied to ABCDEF at `dual_tag = 3`. -/
theorem C3_split_dual_witness :
    0 < 3 ∧ 3 ≤ (['A', 'B', 'C', 'D', 'E', 'F'] : List Char).length ∧
    (split_index ['A', 'B', 'C', 'D', 'E', 'F'] 3).1 =
      (['A', 'B', 'C', 'D', 'E', 'F'] : List Char).take (3 - 1) ∧
    (split_index ['A', 'B', 'C', 'D', 'E', 'F'] 3).1 ++
        (['A', 'B', 'C', 'D', 'E', 'F'] : List Char).get ⟨3 - 1, by decide⟩ ::
        (split_index ['A', 'B', 'C', 'D', 'E', 'F'] 3).2 =
      ['A', 'B', 'C', 'D', 'E', 'F'] :=
  ⟨by decide, by decide,
   (C3_split_dual ['A', 'B', 'C', 'D', 'E', 'F'] 3 (by decide) (by decide)).1,
   (C3_split_dual ['A', 'B', 'C', 'D', 'E', 'F'] 3 (by decide) (by decide)).2.2.2.2
     (by decide)⟩

/-! C4.  The no-call gate. -/

/-- C4: a candidate with more no-calls than `max_no_calls` is routed to the
sentinel entry 0 without scanning the table: findBarcodeName returns entry
0's name, updates entry 0's read counters (reads, and pf_reads when the
template is PF) for the template, leaves every other entry and the tag-hop
hash untouched, and the returned name does not depend on `T[1..]` at all. -/
theorem C4_no_call_gate (b : List Char) (e0 : BcDetails) (rest hops : List BcDetails)
    (opts : Opts) (isPf : Bool) (h : (noCalls b : Int) > opts.max_no_calls) :
    findBarcodeName b (e0 :: rest) hops opts isPf true =
      (e0.name, updateMetrics e0 (some b) isPf :: rest, hops) ∧
    (updateMetrics e0 (some b) isPf).reads = e0.reads + 1 ∧
    (isPf = true → (updateMetrics e0 (some b) isPf).pf_reads = e0.pf_reads + 1) ∧
    ∀ rest2 : List BcDetails,
      (findBarcodeName b (e0 :: rest2) hops opts isPf true).1 = e0.name := by
  refine ⟨?_, rfl, ?_, ?_⟩
  · unfold findBarcodeName
    rw [if_pos h]
    rfl
  · intro h2
    subst h2
    rfl
  · intro rest2
    unfold findBarcodeName
    rw [if_pos h]
    rfl

/-- C4 (witness): the gate applied to candidate NNAA (2 no-calls, above a
`max_no_calls` of 1). -/
theorem C4_no_call_gate_witness :
    (noCalls ['N', 'N', 'A', 'A'] : Int) > (1 : Int) ∧
    findBarcodeName ['N', 'N', 'A', 'A']
        (mkEntry ['N', 'N', 'N', 'N'] ['N', 'N', 'N', 'N'] [] ['0'] ::
          [mkEntry ['A', 'A', 'A', 'A'] ['A', 'A', 'A', 'A'] [] ['x']])
        [] ⟨15, false, 1, 1, 1, false, 4, 0, 0⟩ true true =
      ((mkEntry ['N', 'N', 'N', 'N'] ['N', 'N', 'N', 'N'] [] ['0']).name,
       updateMetrics (mkEntry ['N', 'N', 'N', 'N'] ['N', 'N', 'N', 'N'] [] ['0'])
           (some ['N', 'N', 'A', 'A']) true ::
         [mkEntry ['A', 'A', 'A', 'A'] ['A', 'A', 'A', 'A'] [] ['x']],
       []) :=
  ⟨by decide,
   (C4_no_call_gate ['N', 'N', 'A', 'A']
     (mkEntry ['N', 'N', 'N', 'N'] ['N', 'N', 'N', 'N'] [] ['0'])
     [mkEntry ['A', 'A', 'A', 'A'] ['A', 'A', 'A', 'A'] [] ['x']] []
     ⟨15, false, 1, 1, 1, false, 4, 0, 0⟩ true (by decide)).1⟩

/-! C7.  The quality masker. -/

theorem getD_irrel {α : Type} (l : List α) :
    ∀ (i : Nat) (d1 d2 : α), i < l.length → l.getD i d1 = l.getD i d2 := by
  induction l with
  | nil => intro i d1 d2 h; simp at h
  | cons x xs ih =>
    intro i d1 d2 h
    cases i with
    | zero => rfl
    | succ i =>
      simp only [List.getD_cons_succ]
      exact ih i d1 d2 (by simpa using h)

theorem getD_map {α β : Type} (f : α → β) (d : α) :
    ∀ (l : List α) (i : Nat), i < l.length → (l.map f).getD i (f d) = f (l.getD i d) := by
  intro l
  induction l with
  | nil => intro i h; simp at h
  | cons x xs ih =>
    intro i h
    cases i with
    | zero => rfl
    | succ i =>
      simp only [List.map_cons, List.getD_cons_succ]
      exact ih i (by simpa using h)

theorem getD_zip {α β : Type} (d1 : α) (d2 : β) :
    ∀ (l1 : List α) (l2 : List β) (i : Nat), i < l1.length → i < l2.length →
      (l1.zip l2).getD i (d1, d2) = (l1.getD i d1, l2.getD i d2) := by
  intro l1
  induction l1 with
  | nil => intro l2 i h1 h2; simp at h1
  | cons x xs ih =>
    intro l2 i h1 h2
    cases l2 with
    | nil => simp at h2
    | cons y ys =>
      cases i with
      | zero => rfl
      | succ i =>
        simp only [List.zip_cons_cons, List.getD_cons_succ]
        exact ih ys i (by simpa using h1) (by simpa using h2)

/-- C7: on same-length barcode and quality strings the masker succeeds and
replaces exactly those positions whose barcode character is an ASCII letter
and whose phred value `Q[i] − 33` is at most the effective threshold, which
is 15 when the configured `max_low_quality_to_convert` is zero and the
configured value otherwise; all other positions are copied. -/
theorem C7_quality_masking (bc q : List Char) (opts : Opts) (hlen : bc.length = q.length) :
    ∃ bc2, checkBarcodeQuality bc (some q) opts = some bc2 ∧ bc2.length = bc.length ∧
      (∀ i : Nat, i < bc.length →
        bc2.getD i nulChar =
          if isalphaChar (bc.getD i nulChar) ∧
              ((q.getD i nulChar).toNat : Int) - 33 ≤
                (if opts.max_low_quality_to_convert = 0 then 15
                 else opts.max_low_quality_to_convert)
          then 'N' else bc.getD i nulChar) ∧
      checkBarcodeQuality bc (some q) { opts with max_low_quality_to_convert := 0 } =
        checkBarcodeQuality bc (some q) { opts with max_low_quality_to_convert := 15 } := by
  refine ⟨(bc.zip q).map (fun p =>
      if isalphaChar p.1 ∧ (p.2.toNat : Int) - 33 ≤
          (if opts.max_low_quality_to_convert ≠ 0 then
            opts.max_low_quality_to_convert else 15) then 'N' else p.1),
    ?_, ?_, ?_, ?_⟩
  · simp only [checkBarcodeQuality]
    rw [if_neg (show ¬ bc.length ≠ q.length from by omega)]
  · rw [List.length_map, List.length_zip]
    omega
  · intro i hi
    have hiq : i < q.length := by omega
    have hizip : i < (bc.zip q).length := by rw [List.length_zip]; omega
    have himap : i < ((bc.zip q).map (fun p =>
        if isalphaChar p.1 ∧ (p.2.toNat : Int) - 33 ≤
            (if opts.max_low_quality_to_convert ≠ 0 then
              opts.max_low_quality_to_convert else 15) then 'N' else p.1)).length := by
      rw [List.length_map]; exact hizip
    rw [getD_irrel _ i nulChar
      (if isalphaChar (nulChar, nulChar).1 ∧ ((nulChar, nulChar).2.toNat : Int) - 33 ≤
          (if opts.max_low_quality_to_convert ≠ 0 then
            opts.max_low_quality_to_convert else 15) then 'N' else (nulChar, nulChar).1)
      himap]
    rw [getD_map _ (nulChar, nulChar) (bc.zip q) i hizip]
    rw [getD_zip nulChar nulChar bc q i hi hiq]
    by_cases hz : opts.max_low_quality_to_convert = 0
    · rw [hz]
      norm_num
    · rw [if_pos hz, if_neg hz]
  · simp only [checkBarcodeQuality]
    rw [if_neg (show ¬ bc.length ≠ q.length from by omega)]
    rw [if_neg (show ¬ bc.length ≠ q.length from by omega)]
    norm_num

/-- C7 (witness): the masker applied to barcode AB with qualities `!` (phred
0, masked) and `I` (phred 40, kept). -/
theorem C7_quality_masking_witness :
    (['A', 'B'] : List Char).length = (['!', 'I'] : List Char).length ∧
    ∃ bc2, checkBarcodeQuality ['A', 'B'] (some ['!', 'I']) cdOpts = some bc2 ∧
      bc2.length = (['A', 'B'] : List Char).length ∧
      (∀ i : Nat, i < (['A', 'B'] : List Char).length →
        bc2.getD i nulChar =
          if isalphaChar ((['A', 'B'] : List Char).getD i nulChar) ∧
              (((['!', 'I'] : List Char).getD i nulChar).toNat : Int) - 33 ≤
                (if cdOpts.max_low_quality_to_convert = 0 then 15
                 else cdOpts.max_low_quality_to_convert)
          then 'N' else (['A', 'B'] : List Char).getD i nulChar) ∧
      checkBarcodeQuality ['A', 'B'] (some ['!', 'I'])
          { cdOpts with max_low_quality_to_convert := 0 } =
        checkBarcodeQuality ['A', 'B'] (some ['!', 'I'])
          { cdOpts with max_low_quality_to_convert := 15 } :=
  ⟨by decide, C7_quality_masking ['A', 'B'] ['!', 'I'] cdOpts (by decide)⟩

/-! C5.  The tag-hop detector. -/

theorem memOfGetElem {α : Type} : ∀ {l : List α} {i : Nat} {x : α}, l[i]? = some x → x ∈ l := by
  intro l
  induction l with
  | nil => intro i x h; simp at h
  | cons a as ih =>
    intro i x h
    cases i with
    | zero =>
      rw [List.getElem?_cons_zero] at h
      exact (Option.some.inj h) ▸ List.mem_cons_self a as
    | succ i =>
      rw [List.getElem?_cons_succ] at h
      exact List.mem_cons_of_mem a (ih h)

/-- check_tag_hopping, with its fold split into the two independent per-half
trackers. -/
theorem check_tag_hopping_eq (b : List Char) (arr hops : List BcDetails) (opts : Opts) :
    check_tag_hopping b arr hops opts =
      (if ((arr.drop 1).foldl (trackStep (fun x =>
              mmCount x.idx1 (split_index b opts.dual_tag).1)) (bcLenOf opts, none)).1 = 0 ∧
          ((arr.drop 1).foldl (trackStep (fun x =>
              mmCount x.idx2 (split_index b opts.dual_tag).2)) (bcLenOf opts, none)).1 = 0 then
        match ((arr.drop 1).foldl (trackStep (fun x =>
                mmCount x.idx1 (split_index b opts.dual_tag).1)) (bcLenOf opts, none)).2,
              ((arr.drop 1).foldl (trackStep (fun x =>
                mmCount x.idx2 (split_index b opts.dual_tag).2)) (bcLenOf opts, none)).2 with
        | some m1, some m2 =>
          (match hops.find? (fun e => e.seq == m1.idx1 ++ sepChar :: m2.idx2) with
           | some e => (some e, hops)
           | none => (some (newHopEntry (m1.idx1 ++ sepChar :: m2.idx2) m1.idx1 m2.idx2),
                      hops ++ [newHopEntry (m1.idx1 ++ sepChar :: m2.idx2) m1.idx1 m2.idx2]))
        | _, _ => ((none : Option BcDetails), hops)
      else ((none : Option BcDetails), hops)) := by
  simp only [check_tag_hopping]
  rw [foldl_hopStep_eq]

/-- C5: check_tag_hopping declares a hop iff both halves of the candidate
match some entry's half exactly (best per-half counts zero over `T[1..]`);
when no hop is declared it returns `none` and leaves the tag-hop hash
unchanged; when a hop is declared it returns an entry whose key is
`best1.idx1 ⊕ "-" ⊕ best2.idx2` for the first entries achieving zero
mismatches on each half, reusing the interned entry when the key is present
and otherwise creating (exactly once) a new entry with those two halves,
name "0", library DUMMY_LIB, sample DUMMY_SAMPLE, no description and zero
counters. -/
theorem C5_tag_hop (b : List Char) (arr hops : List BcDetails) (opts : Opts) :
    ((check_tag_hopping b arr hops opts).1.isSome = true ↔
      ((∃ e ∈ arr.drop 1, mmCount e.idx1 (split_index b opts.dual_tag).1 = 0) ∧
       (∃ e ∈ arr.drop 1, mmCount e.idx2 (split_index b opts.dual_tag).2 = 0)))
    ∧ ((check_tag_hopping b arr hops opts).1 = none →
        (check_tag_hopping b arr hops opts).2 = hops)
    ∧ (∀ e, (check_tag_hopping b arr hops opts).1 = some e →
        ∃ (k1 : Nat) (x1 : BcDetails) (k2 : Nat) (x2 : BcDetails),
          (arr.drop 1)[k1]? = some x1 ∧
          mmCount x1.idx1 (split_index b opts.dual_tag).1 = 0 ∧
          (∀ (j : Nat) (y : BcDetails), j < k1 → (arr.drop 1)[j]? = some y →
            mmCount y.idx1 (split_index b opts.dual_tag).1 ≠ 0) ∧
          (arr.drop 1)[k2]? = some x2 ∧
          mmCount x2.idx2 (split_index b opts.dual_tag).2 = 0 ∧
          (∀ (j : Nat) (y : BcDetails), j < k2 → (arr.drop 1)[j]? = some y →
            mmCount y.idx2 (split_index b opts.dual_tag).2 ≠ 0) ∧
          e.seq = x1.idx1 ++ sepChar :: x2.idx2 ∧
          ((hops.find? (fun x => x.seq == e.seq) = some e ∧
            (check_tag_hopping b arr hops opts).2 = hops) ∨
           (hops.find? (fun x => x.seq == e.seq) = none ∧
            e = newHopEntry (x1.idx1 ++ sepChar :: x2.idx2) x1.idx1 x2.idx2 ∧
            (check_tag_hopping b arr hops opts).2 = hops ++ [e]))) := by
  have heq := check_tag_hopping_eq b arr hops opts
  have hcpos : 0 < bcLenOf opts := by unfold bcLenOf; omega
  have hz1 : (((arr.drop 1).foldl (trackStep (fun x =>
      mmCount x.idx1 (split_index b opts.dual_tag).1)) (bcLenOf opts, none)).1 = 0 ↔
      ∃ e ∈ arr.drop 1, mmCount e.idx1 (split_index b opts.dual_tag).1 = 0) := by
    rw [trackFold_fst, foldl_min_eq_zero]
    constructor
    · rintro (h | h)
      · omega
      · rcases List.mem_map.mp h with ⟨e, he, hd⟩
        exact ⟨e, he, hd⟩
    · rintro ⟨e, he, hd⟩
      right
      exact List.mem_map.mpr ⟨e, he, hd⟩
  have hz2 : (((arr.drop 1).foldl (trackStep (fun x =>
      mmCount x.idx2 (split_index b opts.dual_tag).2)) (bcLenOf opts, none)).1 = 0 ↔
      ∃ e ∈ arr.drop 1, mmCount e.idx2 (split_index b opts.dual_tag).2 = 0) := by
    rw [trackFold_fst, foldl_min_eq_zero]
    constructor
    · rintro (h | h)
      · omega
      · rcases List.mem_map.mp h with ⟨e, he, hd⟩
        exact ⟨e, he, hd⟩
    · rintro ⟨e, he, hd⟩
      right
      exact List.mem_map.mpr ⟨e, he, hd⟩
  by_cases hcond : ((arr.drop 1).foldl (trackStep (fun x =>
        mmCount x.idx1 (split_index b opts.dual_tag).1)) (bcLenOf opts, none)).1 = 0 ∧
      ((arr.drop 1).foldl (trackStep (fun x =>
        mmCount x.idx2 (split_index b opts.dual_tag).2)) (bcLenOf opts, none)).1 = 0
  · -- hop declared: extract the two first-achieving entries
    rcases trackFold_best (fun x => mmCount x.idx1 (split_index b opts.dual_tag).1)
        (arr.drop 1) (bcLenOf opts) none with ⟨ha1, _⟩ | ⟨_, k1, x1, hk1, hx1, hd1, hf1⟩
    · omega
    rcases trackFold_best (fun x => mmCount x.idx2 (split_index b opts.dual_tag).2)
        (arr.drop 1) (bcLenOf opts) none with ⟨ha2, _⟩ | ⟨_, k2, x2, hk2, hx2, hd2, hf2⟩
    · omega
    rw [if_pos hcond, hx1, hx2] at heq
    have heq2 : check_tag_hopping b arr hops opts =
        (match hops.find? (fun e => e.seq == x1.idx1 ++ sepChar :: x2.idx2) with
         | some e => (some e, hops)
         | none => (some (newHopEntry (x1.idx1 ++ sepChar :: x2.idx2) x1.idx1 x2.idx2),
                    hops ++ [newHopEntry (x1.idx1 ++ sepChar :: x2.idx2) x1.idx1 x2.idx2])) :=
      heq
    clear heq
    have hd1z : mmCount x1.idx1 (split_index b opts.dual_tag).1 = 0 := by
      rw [hd1]; exact hcond.1
    have hd2z : mmCount x2.idx2 (split_index b opts.dual_tag).2 = 0 := by
      rw [hd2]; exact hcond.2
    have hfz1 : ∀ (j : Nat) (y : BcDetails), j < k1 → (arr.drop 1)[j]? = some y →
        mmCount y.idx1 (split_index b opts.dual_tag).1 ≠ 0 := by
      intro j y hj hjy
      have := hf1 j y hj hjy
      omega
    have hfz2 : ∀ (j : Nat) (y : BcDetails), j < k2 → (arr.drop 1)[j]? = some y →
        mmCount y.idx2 (split_index b opts.dual_tag).2 ≠ 0 := by
      intro j y hj hjy
      have := hf2 j y hj hjy
      omega
    rcases hfind : hops.find? (fun e => e.seq == x1.idx1 ++ sepChar :: x2.idx2) with _ | efound
    · rw [hfind] at heq2
      have heq3 : check_tag_hopping b arr hops opts =
          (some (newHopEntry (x1.idx1 ++ sepChar :: x2.idx2) x1.idx1 x2.idx2),
           hops ++ [newHopEntry (x1.idx1 ++ sepChar :: x2.idx2) x1.idx1 x2.idx2]) := heq2
      refine ⟨?_, ?_, ?_⟩
      · rw [heq3]
        simp only [Option.isSome_some, true_iff]
        exact ⟨⟨x1, memOfGetElem hk1, hd1z⟩, ⟨x2, memOfGetElem hk2, hd2z⟩⟩
      · rw [heq3]
        intro hnone
        exact absurd hnone (by simp)
      · intro e he
        rw [heq3] at he
        have he2 : e = newHopEntry (x1.idx1 ++ sepChar :: x2.idx2) x1.idx1 x2.idx2 :=
          (Option.some.inj he).symm
        refine ⟨k1, x1, k2, x2, hk1, hd1z, hfz1, hk2, hd2z, hfz2, ?_, Or.inr ⟨?_, he2, ?_⟩⟩
        · rw [he2]; rfl
        · rw [he2]
          show hops.find? (fun x => x.seq == (newHopEntry
            (x1.idx1 ++ sepChar :: x2.idx2) x1.idx1 x2.idx2).seq) = none
          exact hfind
        · rw [heq3, he2]
    · rw [hfind] at heq2
      have heq3 : check_tag_hopping b arr hops opts = (some efound, hops) := heq2
      have hseq : efound.seq = x1.idx1 ++ sepChar :: x2.idx2 := by
        have := List.find?_some hfind
        exact eq_of_beq this
      refine ⟨?_, ?_, ?_⟩
      · rw [heq3]
        simp only [Option.isSome_some, true_iff]
        exact ⟨⟨x1, memOfGetElem hk1, hd1z⟩, ⟨x2, memOfGetElem hk2, hd2z⟩⟩
      · rw [heq3]
        intro hnone
        exact absurd hnone (by simp)
      · intro e he
        rw [heq3] at he
        have he2 : e = efound := (Option.some.inj he).symm
        refine ⟨k1, x1, k2, x2, hk1, hd1z, hfz1, hk2, hd2z, hfz2, ?_, Or.inl ⟨?_, ?_⟩⟩
        · rw [he2]; exact hseq
        · rw [he2, hseq]
          exact hfind
        · rw [heq3]
  · -- no hop
    rw [if_neg hcond] at heq
    refine ⟨?_, ?_, ?_⟩
    · rw [heq]
      simp only [Option.isSome_none]
      constructor
      · intro h; exact absurd h (by simp)
      · rintro ⟨h1, h2⟩
        exact absurd ⟨hz1.mpr h1, hz2.mpr h2⟩ hcond
    · intro _
      rw [heq]
    · intro e he
      rw [heq] at he
      exact Option.noConfusion he

/-- Dual-index table (halves of length 2): sentinel NN-NN, then AA-GG and
CC-TT. -/
def c5Arr : List BcDetails :=
  [mkEntry ['N', 'N', '-', 'N', 'N'] ['N', 'N'] ['N', 'N'] ['0'],
   mkEntry ['A', 'A', '-', 'G', 'G'] ['A', 'A'] ['G', 'G'] ['s', '1'],
   mkEntry ['C', 'C', '-', 'T', 'T'] ['C', 'C'] ['T', 'T'] ['s', '2']]

/-- Dual-index options: idx1 and idx2 of length 2, defaults otherwise. -/
def c5Opts : Opts := ⟨15, false, 2, 1, 1, false, 2, 2, 0⟩

/-- C5 (witness): the hop AA-TT (first half of s1, second half of s2) is
declared and interned on the dual-index table. -/
theorem C5_tag_hop_witness :
    (check_tag_hopping ['A', 'A', '-', 'T', 'T'] c5Arr [] c5Opts).1.isSome = true ↔
      ((∃ e ∈ c5Arr.drop 1,
          mmCount e.idx1 (split_index ['A', 'A', '-', 'T', 'T'] c5Opts.dual_tag).1 = 0) ∧
       (∃ e ∈ c5Arr.drop 1,
          mmCount e.idx2 (split_index ['A', 'A', '-', 'T', 'T'] c5Opts.dual_tag).2 = 0)) :=
  (C5_tag_hop ['A', 'A', '-', 'T', 'T'] c5Arr [] c5Opts).1

/-! C6.  The claim states that the string split, truncated and rejoined in
processTemplate is the MASKED barcode, so that masking survives truncation.
The code splits the raw `bc_tag` and, when truncation triggers, overwrites
the masked candidate with the raw truncated halves: masking is lost exactly
when truncation occurs.  The spec's step 3 ("Split B′ ...") is the evident
intent and the code a slip (without truncation the masked string IS kept),
so this is recorded as a code bug. -/

/-- Masking on, single index of length 2. -/
def c6Opts : Opts := ⟨15, true, 2, 1, 1, false, 2, 0, 0⟩

/-- C6 (code bug, evaluated): barcode AAAA with all-low qualities masks to
NNNN, whose truncation would be NN; but the candidate built by
processTemplate is AA, the truncation of the unmasked barcode. -/
theorem C6_truncation_drops_masking :
    checkBarcodeQuality ['A', 'A', 'A', 'A'] (some ['!', '!', '!', '!']) c6Opts =
      some ['N', 'N', 'N', 'N'] ∧
    (['N', 'N', 'N', 'N'] : List Char).take c6Opts.idx1_len = ['N', 'N'] ∧
    buildCandidate ['A', 'A', 'A', 'A'] (some ['!', '!', '!', '!']) c6Opts =
      some ['A', 'A'] ∧
    (['A', 'A'] : List Char) ≠ ['N', 'N'] := by
  decide

/-! C8.  The claim states that a present quality tag of the wrong length
fails the run with BarcodeQualityLengthMismatch and a non-zero exit.  The
masker does detect the mismatch (it returns NULL and prints an error), but
processTemplate ignores the NULL: the template is written through unchanged,
no error is raised and the run exits zero.  The claim matches the code's own
error message and the spec's error table; the swallowed NULL is a slip (on
the truncation path the same NULL is dereferenced), so this is recorded as
a code bug. -/

/-- Masking on, single index of length 4. -/
def c8Opts : Opts := ⟨15, true, 2, 1, 1, false, 4, 0, 0⟩

/-- One record with barcode AAAA and a 2-character quality string. -/
def c8Rec : BamRec := ⟨['q'], some ['G'], some ['A', 'A', 'A', 'A'], some ['I', 'I'], false⟩

/-- C8 (code bug, evaluated): the masker flags the barcode/quality length
mismatch (returns NULL), yet processTemplate succeeds, writes the record
through unchanged and updates nothing. -/
theorem C8_quality_mismatch_swallowed :
    checkBarcodeQuality ['A', 'A', 'A', 'A'] (some ['I', 'I']) c8Opts = none ∧
    processTemplate [c8Rec] cwArr [] c8Opts = Except.ok ([c8Rec], cwArr, []) :=
  ⟨by decide, rfl⟩

/-! C9 and C10.  Metrics accounting through the stream driver. -/

theorem getElemLtLength {α : Type} :
    ∀ {l : List α} {i : Nat} {x : α}, l[i]? = some x → i < l.length := by
  intro l
  induction l with
  | nil => intro i x h; simp at h
  | cons a as ih =>
    intro i x h
    cases i with
    | zero => simp
    | succ i =>
      rw [List.getElem?_cons_succ] at h
      have := ih h
      simp only [List.length_cons]
      omega

theorem updateMetrics_reads (e : BcDetails) (s : Option (List Char)) (isPf : Bool) :
    (updateMetrics e s isPf).reads = e.reads + 1 := rfl

theorem updateMetrics_pf_reads (e : BcDetails) (s : Option (List Char)) (isPf : Bool) :
    (updateMetrics e s isPf).pf_reads = e.pf_reads + (if isPf then 1 else 0) := rfl

theorem updateMetrics_invE (e : BcDetails) (s : Option (List Char)) (isPf : Bool)
    (h : invE e) : invE (updateMetrics e s isPf) := by
  unfold invE at h ⊢
  unfold updateMetrics
  dsimp only
  split_ifs <;> omega

theorem findBestMatch_lt (b : List Char) (arr : List BcDetails) (opts : Opts)
    (h : arr ≠ []) : findBestMatch b arr opts < arr.length := by
  have hlen : 0 < arr.length := List.length_pos.mpr h
  rcases hh : (if opts.min_mismatch_delta ≤ 1 then hashIdx arr b else none) with _ | i
  · rcases hs : (scanFold b arr (bcLenOf opts)).1 with _ | i
    · simp only [findBestMatch, hh, hs]
      exact hlen
    · have hi : i < arr.length := by
        rcases scanFold_best b arr (bcLenOf opts) with ⟨_, h2⟩ | ⟨_, k, e, hk, _, hs1, _, _⟩
        · rw [h2] at hs
          exact Option.noConfusion hs
        · rw [hs1] at hs
          have hki : k = i := Option.some.inj hs
          subst hki
          exact getElemLtLength hk
      simp only [findBestMatch, hh, hs]
      split_ifs
      · exact hi
      · exact hlen
  · have hsome : hashIdx arr b = some i := by
      by_cases hd : opts.min_mismatch_delta ≤ 1
      · rw [if_pos hd] at hh; exact hh
      · rw [if_neg hd] at hh; exact Option.noConfusion hh
    rcases hashIdx_spec arr b i hsome with ⟨e, hg, _, _⟩
    have hi : i < arr.length := getElemLtLength hg
    simp only [findBestMatch, hh]
    exact hi

/-- In findBarcodeName with metrics updates on, the barcode array comes back
with exactly one entry — the gate's entry 0, or the matched entry — passed
through updateMetrics. -/
theorem findBarcodeName_snd (b : List Char) (arr hops : List BcDetails) (opts : Opts)
    (isPf : Bool) :
    (findBarcodeName b arr hops opts isPf true).2.1 =
      (if (noCalls b : Int) > opts.max_no_calls then
        modifyAt arr 0 (fun e => updateMetrics e (some b) isPf)
      else modifyAt arr (findBestMatch b arr opts)
        (fun e => updateMetrics e (some b) isPf)) := by
  by_cases hg : (noCalls b : Int) > opts.max_no_calls
  · simp only [findBarcodeName, if_pos hg, if_true]
  · simp only [findBarcodeName, if_neg hg, if_true]
    by_cases hc : findBestMatch b arr opts = 0 ∧ opts.idx2_len ≠ 0
    · rw [if_pos hc]
      rcases hth : (check_tag_hopping b
          (modifyAt arr (findBestMatch b arr opts) (fun e => updateMetrics e (some b) isPf))
          hops opts).1 with _ | e
      · rfl
      · rfl
    · rw [if_neg hc]

/-- Reduction of processTemplate on a template whose barcode yields a
candidate. -/
theorem processTemplate_ok (r0 : BamRec) (tl : List BamRec) (arr hops : List BcDetails)
    (opts : Opts) (bc : List Char) (qt : Option (List Char)) (cand : List Char)
    (hx : extractBC (r0 :: tl) = .ok (some (bc, qt)))
    (hb : buildCandidate bc qt opts = some cand) :
    processTemplate (r0 :: tl) arr hops opts = .ok
      ((r0 :: tl).map (fun rec =>
        if opts.change_read_name then
          { rec with
              rg := some (makeNewTag rec (findBarcodeName cand arr hops opts (!r0.qcfail) true).1),
              qname := add_suffix rec.qname
                (findBarcodeName cand arr hops opts (!r0.qcfail) true).1 }
        else
          { rec with
              rg := some (makeNewTag rec
                (findBarcodeName cand arr hops opts (!r0.qcfail) true).1) }),
       (findBarcodeName cand arr hops opts (!r0.qcfail) true).2.1,
       (findBarcodeName cand arr hops opts (!r0.qcfail) true).2.2) := by
  simp only [processTemplate, hx, hb]

theorem processTemplate_effect (tpl : List BamRec) (arr hops : List BcDetails)
    (opts : Opts) (h : arr ≠ []) :
    (∃ err, processTemplate tpl arr hops opts = .error err) ∨
    (∃ recs arr2 hops2, processTemplate tpl arr hops opts = .ok (recs, arr2, hops2) ∧
      arr2.length = arr.length ∧
      ((∀ e ∈ arr, invE e) → ∀ e ∈ arr2, invE e) ∧
      sumReads arr2 = sumReads arr + (if hasCandidate tpl opts then 1 else 0) ∧
      sumPfReads arr2 = sumPfReads arr +
        (if hasCandidate tpl opts && tplPf tpl then 1 else 0)) := by
  rcases hx : extractBC tpl with err | bcqt
  · left
    exact ⟨err, by simp only [processTemplate, hx]⟩
  rcases bcqt with _ | ⟨bc, qt⟩
  · right
    refine ⟨tpl, arr, hops, by simp only [processTemplate, hx], rfl, fun h2 => h2, ?_, ?_⟩
    · have : hasCandidate tpl opts = false := by unfold hasCandidate; rw [hx]
      rw [this]
      rfl
    · have : hasCandidate tpl opts = false := by unfold hasCandidate; rw [hx]
      rw [this]
      rfl
  rcases hb : buildCandidate bc qt opts with _ | cand
  · right
    refine ⟨tpl, arr, hops, by simp only [processTemplate, hx, hb], rfl, fun h2 => h2, ?_, ?_⟩
    · have : hasCandidate tpl opts = false := by
        unfold hasCandidate
        rw [hx]
        show (buildCandidate bc qt opts).isSome = false
        rw [hb]
        rfl
      rw [this]
      rfl
    · have : hasCandidate tpl opts = false := by
        unfold hasCandidate
        rw [hx]
        show (buildCandidate bc qt opts).isSome = false
        rw [hb]
        rfl
      rw [this]
      rfl
  · rcases tpl with _ | ⟨r0, tl⟩
    · exfalso
      have : extractBC ([] : List BamRec) = .ok none := rfl
      rw [hx] at this
      exact Option.noConfusion (Except.ok.inj this)
    right
    have hcand : hasCandidate (r0 :: tl) opts = true := by
      unfold hasCandidate
      rw [hx]
      show (buildCandidate bc qt opts).isSome = true
      rw [hb]
      rfl
    have hmod := findBarcodeName_snd cand arr hops opts (!r0.qcfail)
    have hidx : (if (noCalls cand : Int) > opts.max_no_calls then (0 : Nat)
        else findBestMatch cand arr opts) < arr.length := by
      by_cases hg : (noCalls cand : Int) > opts.max_no_calls
      · rw [if_pos hg]
        exact List.length_pos.mpr h
      · rw [if_neg hg]
        exact findBestMatch_lt cand arr opts h
    have hmod2 : (findBarcodeName cand arr hops opts (!r0.qcfail) true).2.1 =
        modifyAt arr (if (noCalls cand : Int) > opts.max_no_calls then 0
          else findBestMatch cand arr opts)
          (fun e => updateMetrics e (some cand) (!r0.qcfail)) := by
      rw [hmod]
      by_cases hg : (noCalls cand : Int) > opts.max_no_calls
      · rw [if_pos hg, if_pos hg]
      · rw [if_neg hg, if_neg hg]
    refine ⟨_, _, _, processTemplate_ok r0 tl arr hops opts bc qt cand hx hb, ?_, ?_, ?_, ?_⟩
    · rw [hmod2, modifyAt_length]
    · intro hinv e he
      rcases mem_modifyAt _ arr _ e (hmod2 ▸ he) with h2 | ⟨y, hy, hxy⟩
      · exact hinv e h2
      · rw [hxy]
        exact updateMetrics_invE y (some cand) (!r0.qcfail) (hinv y hy)
    · rw [hcand]
      unfold sumReads
      rw [hmod2, sum_map_modifyAt (fun e => e.reads)
        (fun e => updateMetrics e (some cand) (!r0.qcfail)) 1 (fun x => rfl) arr _ hidx]
      rfl
    · rw [hcand]
      unfold sumPfReads
      rw [hmod2, sum_map_modifyAt (fun e => e.pf_reads)
        (fun e => updateMetrics e (some cand) (!r0.qcfail))
        (if !r0.qcfail then 1 else 0) (fun x => rfl) arr _ hidx]
      have : tplPf (r0 :: tl) = !r0.qcfail := rfl
      rw [this]
      rfl

theorem processStream_effect :
    ∀ (tpls : List (List BamRec)) (arr hops : List BcDetails) (opts : Opts), arr ≠ [] →
      (processStream tpls arr hops opts).1.length = arr.length ∧
      ((∀ e ∈ arr, invE e) → ∀ e ∈ (processStream tpls arr hops opts).1, invE e) ∧
      ((processStream tpls arr hops opts).2.2 = false →
        sumReads (processStream tpls arr hops opts).1 =
          sumReads arr + tpls.countP (fun t => hasCandidate t opts) ∧
        sumPfReads (processStream tpls arr hops opts).1 =
          sumPfReads arr + tpls.countP (fun t => hasCandidate t opts && tplPf t)) := by
  intro tpls
  induction tpls with
  | nil =>
    intro arr hops opts h
    refine ⟨rfl, fun h2 => h2, fun _ => ⟨?_, ?_⟩⟩ <;> simp [List.countP_nil] <;> rfl
  | cons t ts ih =>
    intro arr hops opts h
    rcases processTemplate_effect t arr hops opts h with
      ⟨err, herr⟩ | ⟨recs, arr2, hops2, hok, hlen, hinv, hsum, hpf⟩
    · have hred : processStream (t :: ts) arr hops opts = (arr, hops, true) := by
        simp only [processStream, herr]
      rw [hred]
      refine ⟨rfl, fun h2 => h2, ?_⟩
      intro hfalse
      exact absurd hfalse (by simp)
    · have hred : processStream (t :: ts) arr hops opts = processStream ts arr2 hops2 opts := by
        simp only [processStream, hok]
      have harr2 : arr2 ≠ [] := by
        intro hnil
        rw [hnil] at hlen
        simp only [List.length_nil] at hlen
        have := List.length_pos.mpr h
        omega
      rcases ih arr2 hops2 opts harr2 with ⟨ihlen, ihinv, ihsum⟩
      rw [hred]
      refine ⟨by rw [ihlen, hlen], fun h2 => ihinv (hinv h2), ?_⟩
      intro hfalse
      rcases ihsum hfalse with ⟨ih1, ih2⟩
      constructor
      · rw [ih1, hsum, List.countP_cons]
        cases hcv : hasCandidate t opts <;> (simp [hcv]; try omega)
      · rw [ih2, hpf, List.countP_cons]
        cases hcv : hasCandidate t opts <;> cases hpv : tplPf t <;>
          (simp [hcv, hpv]; try omega)

/-- C9 (amended): per-entry counters are updated exactly once per template,
on the first record's pass-filter flag: the invariants
`perfect ≤ reads`, `one_mismatch ≤ reads`, `pf_reads ≤ reads`,
`pf_perfect ≤ perfect`, `pf_one_mismatch ≤ one_mismatch` hold for every
table entry after any stream, and, when the run completes without a
per-template error, the total of `reads` over the table (sentinel included)
grows by the number of templates that yield a candidate barcode — templates
with a barcode tag, EXCLUDING those silently dropped by the
quality-length-mismatch masking slip — and the total of `pf_reads` by the
number of such templates whose first record passes filter. -/
theorem C9_counter_conservation (tpls : List (List BamRec)) (arr hops : List BcDetails)
    (opts : Opts) (h1 : arr ≠ []) (h2 : ∀ e ∈ arr, invE e) :
    (∀ e ∈ (processStream tpls arr hops opts).1, invE e) ∧
    ((processStream tpls arr hops opts).2.2 = false →
      sumReads (processStream tpls arr hops opts).1 =
        sumReads arr + tpls.countP (fun t => hasCandidate t opts) ∧
      sumPfReads (processStream tpls arr hops opts).1 =
        sumPfReads arr + tpls.countP (fun t => hasCandidate t opts && tplPf t)) := by
  rcases processStream_effect tpls arr hops opts h1 with ⟨_, hinv, hsum⟩
  exact ⟨hinv h2, hsum⟩

/-- C9 (counterexample): one template with barcode tag AAAA and a 2-character
quality tag, masking enabled.  The stream completes without error, the
template carries a barcode tag, yet no `reads` counter anywhere in the table
is incremented: the sum of reads (0) differs from the number of
barcode-tagged templates (1). -/
theorem C9_counterexample :
    (∀ e ∈ cwArr, invE e) ∧
    (processStream [[c8Rec]] cwArr [] c8Opts).2.2 = false ∧
    List.countP (fun t => hasBarcodeTag t) [[c8Rec]] = 1 ∧
    sumReads (processStream [[c8Rec]] cwArr [] c8Opts).1 = 0 := by
  decide

/-- A record with barcode AAAA, no quality tag, an RG value and PF set. -/
def c9wRec : BamRec := ⟨['q'], some ['G'], some ['A', 'A', 'A', 'A'], none, false⟩

/-- C9 (witness): the conservation law applied to a one-template stream that
matches entry 1 of the table exactly. -/
theorem C9_counter_conservation_witness :
    (cwArr ≠ [] ∧ ∀ e ∈ cwArr, invE e) ∧
    ((processStream [[c9wRec]] cwArr [] cdOpts).2.2 = false →
      sumReads (processStream [[c9wRec]] cwArr [] cdOpts).1 =
        sumReads cwArr + List.countP (fun t => hasCandidate t cdOpts) [[c9wRec]] ∧
      sumPfReads (processStream [[c9wRec]] cwArr [] cdOpts).1 =
        sumPfReads cwArr +
          List.countP (fun t => hasCandidate t cdOpts && tplPf t) [[c9wRec]]) :=
  ⟨⟨by decide, by decide⟩,
   (C9_counter_conservation [[c9wRec]] cwArr [] cdOpts (by decide) (by decide)).2⟩

/-- C10 (amended): when a template has a barcode tag AND a candidate barcode
is actually built (the masking slip not triggered), every record of the
template gets its RG auxiliary value rewritten to the old value (the empty
string when the record has no RG field) followed by `#` and the matched
entry's name; a record with no RG receives exactly `#<name>`; the other
modelled fields are untouched. -/
theorem C10_rg_rewrite (r0 : BamRec) (tl : List BamRec) (arr hops : List BcDetails)
    (opts : Opts) (bc : List Char) (qt : Option (List Char)) (cand : List Char)
    (hx : extractBC (r0 :: tl) = .ok (some (bc, qt)))
    (hb : buildCandidate bc qt opts = some cand) :
    ∃ recs arr2 hops2,
      processTemplate (r0 :: tl) arr hops opts = .ok (recs, arr2, hops2) ∧
      recs.length = (r0 :: tl).length ∧
      ∀ (i : Nat) (r r2 : BamRec), (r0 :: tl)[i]? = some r → recs[i]? = some r2 →
        r2.rg = some (makeNewTag r (findBarcodeName cand arr hops opts (!r0.qcfail) true).1) ∧
        (r.rg = none →
          r2.rg = some ('#' ::
            (findBarcodeName cand arr hops opts (!r0.qcfail) true).1)) ∧
        r2.bc = r.bc ∧ r2.qt = r.qt ∧ r2.qcfail = r.qcfail := by
  refine ⟨_, _, _, processTemplate_ok r0 tl arr hops opts bc qt cand hx hb,
    by rw [List.length_map], ?_⟩
  intro i r r2 hr hr2
  rw [List.getElem?_map, hr] at hr2
  have hr2e : r2 = (if opts.change_read_name then
      { r with
          rg := some (makeNewTag r (findBarcodeName cand arr hops opts (!r0.qcfail) true).1),
          qname := add_suffix r.qname
            (findBarcodeName cand arr hops opts (!r0.qcfail) true).1 }
    else
      { r with
          rg := some (makeNewTag r
            (findBarcodeName cand arr hops opts (!r0.qcfail) true).1) }) :=
    (Option.some.inj hr2).symm
  by_cases hcr : opts.change_read_name
  · rw [if_pos hcr] at hr2e
    subst hr2e
    refine ⟨rfl, ?_, rfl, rfl, rfl⟩
    intro hnone
    show some (makeNewTag r (findBarcodeName cand arr hops opts (!r0.qcfail) true).1) = _
    unfold makeNewTag
    rw [hnone]
    rfl
  · rw [if_neg hcr] at hr2e
    subst hr2e
    refine ⟨rfl, ?_, rfl, rfl, rfl⟩
    intro hnone
    show some (makeNewTag r (findBarcodeName cand arr hops opts (!r0.qcfail) true).1) = _
    unfold makeNewTag
    rw [hnone]
    rfl

/-- C10 (counterexample): the template with barcode tag AAAA and a
2-character quality tag (masking enabled) is written through with its RG
value unchanged — no record gets rewritten although the template has a
barcode tag. -/
theorem C10_counterexample :
    hasBarcodeTag [c8Rec] = true ∧
    processTemplate [c8Rec] cwArr [] c8Opts = Except.ok ([c8Rec], cwArr, []) ∧
    c8Rec.rg = some ['G'] :=
  ⟨by decide, rfl, rfl⟩

/-- A record with no RG, no barcode and no quality tag. -/
def c10Rec : BamRec := ⟨['q'], none, none, none, false⟩

/-- C10 (witness): a two-record template (the second record has no RG field)
whose barcode matches entry 1; both records get their RG rewritten. -/
theorem C10_rg_rewrite_witness :
    (extractBC [c9wRec, c10Rec] = .ok (some (['A', 'A', 'A', 'A'], none)) ∧
     buildCandidate ['A', 'A', 'A', 'A'] none cdOpts = some ['A', 'A', 'A', 'A']) ∧
    (∃ recs arr2 hops2,
      processTemplate [c9wRec, c10Rec] cwArr [] cdOpts = .ok (recs, arr2, hops2) ∧
      recs.length = ([c9wRec, c10Rec] : List BamRec).length ∧
      ∀ (i : Nat) (r r2 : BamRec),
        ([c9wRec, c10Rec] : List BamRec)[i]? = some r → recs[i]? = some r2 →
        r2.rg = some (makeNewTag r
          (findBarcodeName ['A', 'A', 'A', 'A'] cwArr [] cdOpts (!c9wRec.qcfail) true).1) ∧
        (r.rg = none →
          r2.rg = some ('#' ::
            (findBarcodeName ['A', 'A', 'A', 'A'] cwArr [] cdOpts (!c9wRec.qcfail) true).1)) ∧
        r2.bc = r.bc ∧ r2.qt = r.qt ∧ r2.qcfail = r.qcfail) :=
  ⟨⟨rfl, rfl⟩,
   C10_rg_rewrite c9wRec [c10Rec] cwArr [] cdOpts ['A', 'A', 'A', 'A'] none
     ['A', 'A', 'A', 'A'] rfl rfl⟩

end Bambi
